import Mathlib

/-
Verification of the iotech-c-utils scheduler, container and clock subsystems.

Shallow embedding of src/src/c/scheduler.c (scheduler + container),
src/include/iot/os/linux.h (time functions) against the specification.

Machine integers are modelled as Nat with explicit reduction modulo 2^64
wherever the C code performs uint64_t arithmetic that may wrap.  The ordered
iot_data maps (keyed by UINT64) are modelled as association lists together
with an explicit minimum-key function; the order of the list is irrelevant
to every property proved here, only the key set, the key-value relation and
the minimum matter.  Mutation of schedule objects referenced from the maps
is modelled by a heap: a list of schedule records addressed by schedule id,
with the maps storing ids in place of pointers.  External collaborators
(thread pool admission, the wall clock) are modelled as oracle inputs, as
the specification treats them as named interfaces only.
-/

namespace IotCUtils

/-- Number of values of a 64-bit unsigned integer; arithmetic on uint64_t
fields in the source is performed modulo this constant. -/
def u64 : Nat := 2 ^ 64

/-- Component lifecycle states, from iot_component_state_t. -/
inductive CompState where
  | initial
  | running
  | stopped
  | deleted
deriving DecidableEq, Repr

/-- Observable events emitted by the embedded operations: the run callback,
a submission of the work function (to the pool or as a fresh thread), a
dropped occurrence, the abort callback, the first-drop warning log, a
signal of the dispatcher condition variable, the freeing of a schedule and
the invocation of its user free function. -/
inductive Event where
  | runcb (sid : Nat)
  | invoke (sid : Nat)
  | drop (sid : Nat)
  | abortcb (sid : Nat)
  | logwarn (sid : Nat)
  | signal
  | schedFree (sid : Nat)
  | freeFn (sid : Nat)
deriving DecidableEq, Repr

/-- The due-time and idle maps: association lists from uint64 keys to
schedule ids (the map values are schedule pointers in the source). -/
abbrev KMap := List (Nat × Nat)

/-- Key membership, modelling a non-null result of iot_data_map_get. -/
def containsKey (m : KMap) (k : Nat) : Bool :=
  m.any (fun p => p.1 == k)

/-- Value lookup, modelling iot_data_map_get. -/
def mapGet (m : KMap) (k : Nat) : Option Nat :=
  (m.find? (fun p => p.1 == k)).map Prod.snd

/-- Insertion, modelling iot_data_map_add (replaces any entry with an equal
key). -/
def mapAdd (m : KMap) (k v : Nat) : KMap :=
  (k, v) :: m.filter (fun p => p.1 != k)

/-- Removal by key, modelling iot_data_map_remove. -/
def mapRemove (m : KMap) (k : Nat) : KMap :=
  m.filter (fun p => p.1 != k)

/-- The list of keys of a map. -/
def keysOf (m : KMap) : List Nat := m.map Prod.fst

/-- The list of values of a map. -/
def valsOf (m : KMap) : List Nat := m.map Prod.snd

/-- The minimum key of the map, none when empty.  The iot_data map is an
ordered map, so its first entry carries the minimum key. -/
def minKey? : KMap → Option Nat
  | [] => none
  | p :: rest =>
    some (match minKey? rest with
          | none => p.1
          | some k => Nat.min p.1 k)

/-- The value stored under the minimum key: the schedule at the front of
the ordered map, modelling iot_data_map_start_pointer. -/
def queueNext (m : KMap) : Option Nat :=
  match minKey? m with
  | none => none
  | some k => mapGet m k

/-- Whether a given schedule id is at the front of the map, modelling
iot_schedule_is_next (a pointer comparison in the source). -/
def isNext (m : KMap) (sid : Nat) : Bool :=
  queueNext m == some sid

/-- One schedule object (struct iot_schedule_t).  Field rpt is the source
field named repeat; 0 means infinite.  Function pointers are modelled by
presence flags, since only presence is branched on. -/
structure Sched where
  sid : Nat
  start : Nat
  period : Nat
  rpt : Nat
  scheduled : Bool
  dropped : Nat
  hasPool : Bool
  hasRunCb : Bool
  hasAbortCb : Bool
  hasFreeFn : Bool
deriving DecidableEq, Repr

/-- Scheduler state (struct iot_scheduler_t plus its component base): the
heap of live schedule objects, the due-time map (queue), the idle map, the
component state, the component reference count, the next wake time
(schd_time) and the process-wide schedule id counter. -/
structure SchedState where
  scheds : List Sched
  queue : KMap
  idle : KMap
  compState : CompState
  refs : Nat
  schdTime : Nat
  nextId : Nat
deriving DecidableEq, Repr

/-- Dereference a schedule id in the heap. -/
def getSched (st : SchedState) (sid : Nat) : Option Sched :=
  st.scheds.find? (fun s => s.sid == sid)

/-- Overwrite the heap record holding the given schedule's id, modelling
mutation through the schedule pointer. -/
def setSchedList (l : List Sched) (sch : Sched) : List Sched :=
  l.map (fun s => if s.sid == sch.sid then sch else s)

/-- Overwrite a schedule record in the state's heap. -/
def setSched (st : SchedState) (sch : Sched) : SchedState :=
  { st with scheds := setSchedList st.scheds sch }

/-- The collision loop of iot_schedule_queue_add: while the queue contains
the key, step to the next uint64 value.  The fuel argument makes the
search total; u64 steps visit every residue, so exhaustion of u64 fuel
corresponds exactly to the divergence of the C loop on a map occupying all
2^64 keys. -/
def findFreeStart (m : KMap) : Nat → Nat → Option Nat
  | _, 0 => none
  | s, fuel + 1 =>
    if containsKey m s then findFreeStart m ((s + 1) % u64) fuel else some s

/-- iot_schedule_queue_add: bump the start past colliding keys, insert the
schedule in the due-time map under the resulting key, mark it scheduled and
report whether it is now at the front of the map. -/
def iot_schedule_queue_add (st : SchedState) (sid : Nat) : Option (SchedState × Bool) :=
  match getSched st sid with
  | none => none
  | some sch =>
    match findFreeStart st.queue sch.start u64 with
    | none => none
    | some s =>
      let sch' := { sch with start := s, scheduled := true }
      let st' := { setSched st sch' with queue := mapAdd st.queue s sid }
      some (st', isNext st'.queue sid)

/-- iot_schedule_idle_add: insert in the idle map keyed by schedule id and
clear the scheduled flag. -/
def iot_schedule_idle_add (st : SchedState) (sid : Nat) : SchedState :=
  match getSched st sid with
  | none => st
  | some sch =>
    { setSched st { sch with scheduled := false } with
      idle := mapAdd st.idle sch.sid sid }

/-- iot_schedule_idle_remove: remove from the idle map by schedule id. -/
def iot_schedule_idle_remove (st : SchedState) (sid : Nat) : SchedState :=
  match getSched st sid with
  | none => st
  | some sch => { st with idle := mapRemove st.idle sch.sid }

/-- iot_schedule_queue_remove: remove from the due-time map by the
schedule's current start key.  Note that the source does not touch the
scheduled flag here (the schedule parameter is even const). -/
def iot_schedule_queue_remove (st : SchedState) (sid : Nat) : SchedState :=
  match getSched st sid with
  | none => st
  | some sch => { st with queue := mapRemove st.queue sch.start }

/-- iot_schedule_queue_update: remove under the old start key, set the new
start, re-insert via iot_schedule_queue_add. -/
def iot_schedule_queue_update (st : SchedState) (sid : Nat) (next : Nat) :
    Option (SchedState × Bool) :=
  let st1 := iot_schedule_queue_remove st sid
  match getSched st1 sid with
  | none => none
  | some sch => iot_schedule_queue_add (setSched st1 { sch with start := next }) sid

/-- Modelled from the spec: IOT_SCHEDULER_DEFAULT_WAKE is IOT_HOUR_TO_NS
applied to 24 and iot/time.h is not under src; 24 hours in nanoseconds. -/
def defaultWake : Nat := 24 * 60 * 60 * 1000000000

/-- Oracle inputs of one pass of the dispatcher body: the successive
readings of iot_time_nsecs (at the due test, at the next-start computation
and at the empty-queue wake computation) and the thread-pool admission
decision for this pass. -/
structure DisIn where
  now1 : Nat
  now2 : Nat
  now3 : Nat
  poolOk : Bool
deriving DecidableEq, Repr

/-- The wake time computed at the end of the dispatcher body: the front
schedule's start, or now plus the default wake for an empty queue.  The
dangling-id fallback is unreachable in well-formed states. -/
def wakeOf (st : SchedState) (now3 : Nat) : Nat :=
  match queueNext st.queue with
  | none => (now3 % u64 + defaultWake) % u64
  | some cid =>
    match getSched st cid with
    | none => 0
    | some sch => sch.start

/-- One pass of the dispatcher body (iot_scheduler_thread) taken with the
component state observed RUNNING: inspect the front of the due-time map;
when due, emit the run callback, submit the work function (to the pool,
whose admission decision is the oracle input, or as a fresh thread),
account a drop on pool refusal (abort callback, counter increment, warning
on the first drop), then advance the repeat count and re-queue at period
plus now or retire to the idle map; finally recompute the wake time. -/
def dispatchOnce (st : SchedState) (i : DisIn) : Option (SchedState × List Event) :=
  match queueNext st.queue with
  | none => some ({ st with schdTime := wakeOf st i.now3 }, [])
  | some cid =>
    match getSched st cid with
    | none => none
    | some cur =>
      if cur.start < i.now1 % u64 then
        let evs1 := if cur.hasRunCb then [Event.runcb cid] else []
        let evs2 :=
          if cur.hasPool then
            if i.poolOk then [Event.invoke cid]
            else
              (if cur.hasAbortCb then [Event.abortcb cid] else []) ++
              [Event.drop cid] ++
              (if cur.dropped == 0 then [Event.logwarn cid] else [])
          else [Event.invoke cid]
        let cur1 := if cur.hasPool && !i.poolOk then
                      { cur with dropped := cur.dropped + 1 } else cur
        let st1 := setSched st cur1
        let next := (cur1.period + i.now2 % u64) % u64
        let after : Option SchedState :=
          if cur1.rpt > 0 then
            let cur2 := { cur1 with rpt := cur1.rpt - 1 }
            if cur2.rpt == 0 then
              some (iot_schedule_idle_add
                      (iot_schedule_queue_remove (setSched st1 cur2) cid) cid)
            else
              (iot_schedule_queue_update (setSched st1 cur2) cid next).map Prod.fst
          else
            (iot_schedule_queue_update st1 cid next).map Prod.fst
        match after with
        | none => none
        | some st2 => some ({ st2 with schdTime := wakeOf st2 i.now3 }, evs1 ++ evs2)
      else
        some ({ st with schdTime := wakeOf st i.now3 }, [])

/-- A run of successive dispatcher body passes, concatenating the events. -/
def runDispatch (st : SchedState) : List DisIn → Option (SchedState × List Event)
  | [] => some (st, [])
  | i :: rest =>
    match dispatchOnce st i with
    | none => none
    | some r =>
      match runDispatch r.1 rest with
      | none => none
      | some r2 => some (r2.1, r.2 ++ r2.2)

/-- iot_schedule_create: allocate the next schedule id, build the record
with start equal to the clock reading plus the offset, and insert it in
the idle map. -/
def iot_schedule_create (st : SchedState) (period startOff rpt : Nat)
    (hasPool hasFreeFn : Bool) (now : Nat) : SchedState × Nat :=
  let sid := st.nextId
  let sch : Sched :=
    { sid := sid
      start := (now % u64 + startOff % u64) % u64
      period := period % u64
      rpt := rpt % u64
      scheduled := false
      dropped := 0
      hasPool := hasPool
      hasRunCb := false
      hasAbortCb := false
      hasFreeFn := hasFreeFn }
  let st1 := { st with scheds := sch :: st.scheds, nextId := st.nextId + 1 }
  (iot_schedule_idle_add st1 sid, sid)

/-- iot_schedule_add: when the schedule is not already scheduled, move it
from the idle map to the due-time map and signal the dispatcher condition
variable when it landed at the front while the scheduler is running;
otherwise leave the state unchanged.  Returns whether the transition
occurred. -/
def iot_schedule_add (st : SchedState) (sid : Nat) :
    Option (SchedState × Bool × List Event) :=
  match getSched st sid with
  | none => none
  | some sch =>
    if sch.scheduled then some (st, false, [])
    else
      match iot_schedule_queue_add (iot_schedule_idle_remove st sid) sid with
      | none => none
      | some r =>
        some (r.1, true,
          if r.2 && (r.1.compState == CompState.running) then [Event.signal] else [])

/-- iot_schedule_remove: when scheduled, remove from the due-time map and
park in the idle map.  Returns whether the transition occurred. -/
def iot_schedule_remove (st : SchedState) (sid : Nat) : SchedState × Bool :=
  match getSched st sid with
  | none => (st, false)
  | some sch =>
    if sch.scheduled then
      (iot_schedule_idle_add (iot_schedule_queue_remove st sid) sid, true)
    else (st, false)

/-- iot_schedule_reset: recompute the next start as period plus now; when
scheduled, move the entry in the due-time map and signal the dispatcher
when it landed at the front while running; otherwise only set the start
field. -/
def iot_schedule_reset (st : SchedState) (sid : Nat) (now : Nat) :
    Option (SchedState × List Event) :=
  match getSched st sid with
  | none => none
  | some sch =>
    let next := (sch.period + now % u64) % u64
    if sch.scheduled then
      match iot_schedule_queue_update st sid next with
      | none => none
      | some r =>
        some (r.1,
          if r.2 && (r.1.compState == CompState.running) then [Event.signal] else [])
    else
      some (setSched st { sch with start := next }, [])

/-- iot_schedule_free: invoke the user free function on the argument when
supplied, then release the schedule object. -/
def iot_schedule_free_events (sch : Sched) : List Event :=
  (if sch.hasFreeFn then [Event.freeFn sch.sid] else []) ++ [Event.schedFree sch.sid]

/-- iot_schedule_delete: remove the schedule from whichever map holds it,
then free it. -/
def iot_schedule_delete (st : SchedState) (sid : Nat) : SchedState × List Event :=
  match getSched st sid with
  | none => (st, [])
  | some sch =>
    let st1 := if sch.scheduled then iot_schedule_queue_remove st sid
               else iot_schedule_idle_remove st sid
    ({ st1 with scheds := st1.scheds.filter (fun s => s.sid != sid) },
     iot_schedule_free_events sch)

/-- iot_scheduler_free_schedules: iterate the map and free each schedule
held as a value.  The source first replaces each value by a null
placeholder so that freeing the map itself cannot free a schedule a second
time; accordingly the map contributes no further free events. -/
def iot_scheduler_free_schedules (scheds : List Sched) (m : KMap) : List Event :=
  m.flatMap (fun p =>
    match scheds.find? (fun s => s.sid == p.2) with
    | none => []
    | some sch => iot_schedule_free_events sch)

/-- Modelled from the spec: iot_component_dec_ref (component base, not
under src) decrements the shared reference count and reports whether it
reached zero, the final release triggering teardown. -/
def iot_component_dec_ref (refs : Nat) : Nat × Bool :=
  (refs - 1, refs - 1 == 0)

/-- iot_scheduler_free: on final release, stop then delete the component
(parking and terminating the dispatcher), drain the due-time map and then
the idle map freeing every schedule, and release the scheduler. -/
def iot_scheduler_free (st : SchedState) : SchedState × List Event :=
  let r := iot_component_dec_ref st.refs
  if r.2 then
    ({ st with refs := 0, compState := CompState.deleted,
               scheds := [], queue := [], idle := [] },
     iot_scheduler_free_schedules st.scheds st.queue ++
     iot_scheduler_free_schedules st.scheds st.idle)
  else ({ st with refs := r.1 }, [])

/-- The number of dispatch attempts (work submissions plus dropped
occurrences) recorded for a schedule in an event list. -/
def attempts (evs : List Event) (sid : Nat) : Nat :=
  evs.countP (fun e => e == Event.invoke sid || e == Event.drop sid)

/-- One call to iot_time_nsecs (the strictly monotonic clock in the time
source): given the stored atomic last value and the wall-clock reading,
return the result and the new stored value.  The compare-exchange retry
loop linearises concurrent calls; one call is one atomic step here. -/
def iot_time_nsecs_step (last : Nat) (now : Nat) : Nat × Nat :=
  let result := if now % u64 ≤ last then (last + 1) % u64 else now % u64
  (result, result)

/-- A sequence of calls to iot_time_nsecs with the given wall-clock
readings: the list of returned values and the final stored value. -/
def iot_time_nsecs_run (last : Nat) : List Nat → List Nat × Nat
  | [] => ([], last)
  | now :: rest =>
    let r := iot_time_nsecs_step last now
    let r2 := iot_time_nsecs_run r.2 rest
    (r.1 :: r2.1, r2.2)

/-- Container lifecycle events. -/
inductive CEvent where
  | started (cid : Nat)
  | stopped (cid : Nat)
deriving DecidableEq, Repr

/-- The component a container lifecycle event concerns. -/
def cidOf : CEvent → Nat
  | .started i => i
  | .stopped i => i

/-- A container's holder list, modelling the doubly linked list of
component holders in insertion order, head first.  Holders are identified
by component ids. -/
abbrev Holders := List Nat

/-- iot_component_create appends the new holder at the tail of the list. -/
def addHolder (hs : Holders) (h : Nat) : Holders := hs ++ [h]

/-- iot_container_start: walk the holder list from head to tail invoking
each component's start function. -/
def iot_container_start (hs : Holders) : List CEvent := hs.map CEvent.started

/-- iot_container_stop: walk the holder list from tail to head via the
back links, invoking each component's stop function. -/
def iot_container_stop (hs : Holders) : List CEvent :=
  hs.reverse.map CEvent.stopped

/-- The schedule ids of a heap. -/
def sidsOf (l : List Sched) : List Nat := l.map Sched.sid

/-- Well-formed scheduler states: distinct schedule ids, distinct keys in
both maps, every map entry referencing a live schedule consistent with the
entry (queue keys equal the schedule's start, idle keys equal its id), and
every schedule's scheduled flag mirroring due-time map membership while the
idle map holds exactly the unscheduled ones; starts fit in 64 bits. -/
def WF (st : SchedState) : Prop :=
  (sidsOf st.scheds).Nodup ∧
  (keysOf st.queue).Nodup ∧
  (keysOf st.idle).Nodup ∧
  (∀ p ∈ st.queue, ∃ sch ∈ st.scheds, sch.sid = p.2 ∧ sch.start = p.1 ∧ sch.scheduled = true) ∧
  (∀ p ∈ st.idle, p.1 = p.2 ∧ ∃ sch ∈ st.scheds, sch.sid = p.2 ∧ sch.scheduled = false) ∧
  (∀ sch ∈ st.scheds, sch.start < u64 ∧
    (sch.scheduled = true ↔ sch.sid ∈ valsOf st.queue) ∧
    (sch.scheduled = false ↔ sch.sid ∈ valsOf st.idle))

instance : DecidablePred WF := fun st => by unfold WF; infer_instance

/-- Well-formedness with one schedule detached from both maps, the shape of
the intermediate states inside queue_update, add and remove. -/
def WFexcept (st : SchedState) (sid : Nat) : Prop :=
  (sidsOf st.scheds).Nodup ∧
  (keysOf st.queue).Nodup ∧
  (keysOf st.idle).Nodup ∧
  (∀ p ∈ st.queue, ∃ sch ∈ st.scheds, sch.sid = p.2 ∧ sch.start = p.1 ∧ sch.scheduled = true) ∧
  (∀ p ∈ st.idle, p.1 = p.2 ∧ ∃ sch ∈ st.scheds, sch.sid = p.2 ∧ sch.scheduled = false) ∧
  sid ∉ valsOf st.queue ∧
  sid ∉ valsOf st.idle ∧
  (∀ sch ∈ st.scheds, sch.start < u64 ∧
    (sch.sid ≠ sid →
      (sch.scheduled = true ↔ sch.sid ∈ valsOf st.queue) ∧
      (sch.scheduled = false ↔ sch.sid ∈ valsOf st.idle)))

theorem containsKey_iff (m : KMap) (k : Nat) :
    containsKey m k = true ↔ k ∈ keysOf m := by
  simp [containsKey, keysOf, List.any_eq_true, List.mem_map]

theorem containsKey_eq_false_iff (m : KMap) (k : Nat) :
    containsKey m k = false ↔ k ∉ keysOf m := by
  rw [← Bool.not_eq_true, not_iff_not]
  exact containsKey_iff m k

theorem mapGet_mem {m : KMap} {k v : Nat} (h : mapGet m k = some v) : (k, v) ∈ m := by
  unfold mapGet at h
  cases hf : m.find? (fun p => p.1 == k) with
  | none => rw [hf] at h; exact absurd h (by simp)
  | some p =>
    rw [hf] at h
    have hm := List.mem_of_find?_eq_some hf
    have hp := List.find?_some hf
    simp only [beq_iff_eq] at hp
    have : p = (k, v) := by
      cases p
      simp_all
    rw [← this]; exact hm

theorem mem_keysOf_of_mapGet {m : KMap} {k v : Nat} (h : mapGet m k = some v) :
    k ∈ keysOf m := by
  exact List.mem_map.mpr ⟨(k, v), mapGet_mem h, rfl⟩

theorem mapGet_isSome_iff (m : KMap) (k : Nat) :
    (mapGet m k).isSome = containsKey m k := by
  induction m with
  | nil => rfl
  | cons p rest ih =>
    by_cases hk : p.1 = k
    · simp [mapGet, containsKey, List.find?, hk]
    · have hne : (p.1 == k) = false := by simp [hk]
      simp only [mapGet, containsKey, List.find?, List.any, hne] at *
      simpa [mapGet, containsKey] using ih

theorem mapGet_of_mem {m : KMap} {k v : Nat} (hnd : (keysOf m).Nodup)
    (h : (k, v) ∈ m) : mapGet m k = some v := by
  induction m with
  | nil => cases h
  | cons p rest ih =>
    simp only [keysOf, List.map_cons, List.nodup_cons] at hnd
    rcases List.mem_cons.mp h with h1 | h1
    · subst h1; simp [mapGet, List.find?]
    · have hk : p.1 ≠ k := by
        intro he
        exact hnd.1 (he ▸ List.mem_map.mpr ⟨(k, v), h1, rfl⟩)
      have hne : (p.1 == k) = false := by simp [hk]
      simp only [mapGet, List.find?, hne]
      exact ih hnd.2 h1

theorem mem_mapAdd {m : KMap} {k v : Nat} {p : Nat × Nat} :
    p ∈ mapAdd m k v ↔ p = (k, v) ∨ (p ∈ m ∧ p.1 ≠ k) := by
  simp [mapAdd, List.mem_filter]

theorem mem_mapRemove {m : KMap} {k : Nat} {p : Nat × Nat} :
    p ∈ mapRemove m k ↔ p ∈ m ∧ p.1 ≠ k := by
  simp [mapRemove, List.mem_filter]

theorem keysOf_filter (m : KMap) (k : Nat) :
    keysOf (m.filter (fun p => p.1 != k)) = (keysOf m).filter (fun x => x != k) := by
  induction m with
  | nil => rfl
  | cons p rest ih =>
    by_cases hk : p.1 = k
    · have h1 : (p.1 != k) = false := by simp [hk]
      simp only [keysOf, List.filter_cons, List.map_cons, h1, Bool.false_eq_true,
        if_false] at *
      exact ih
    · have h1 : (p.1 != k) = true := by simp [hk]
      simp only [keysOf, List.filter_cons, List.map_cons, h1, if_true] at *
      simp [ih]

theorem keysOf_mapRemove (m : KMap) (k : Nat) :
    keysOf (mapRemove m k) = (keysOf m).filter (fun x => x != k) :=
  keysOf_filter m k

theorem keysOf_mapAdd (m : KMap) (k v : Nat) :
    keysOf (mapAdd m k v) = k :: (keysOf m).filter (fun x => x != k) := by
  show k :: keysOf (m.filter (fun p => p.1 != k)) = _
  rw [keysOf_filter]

theorem nodup_keysOf_mapAdd {m : KMap} (k v : Nat) (h : (keysOf m).Nodup) :
    (keysOf (mapAdd m k v)).Nodup := by
  rw [keysOf_mapAdd]
  refine List.nodup_cons.mpr ⟨?_, h.filter _⟩
  intro hk
  have := (List.mem_filter.mp hk).2
  simp at this

theorem nodup_keysOf_mapRemove {m : KMap} (k : Nat) (h : (keysOf m).Nodup) :
    (keysOf (mapRemove m k)).Nodup := by
  rw [keysOf_mapRemove]
  exact h.filter _

theorem mem_valsOf {m : KMap} {v : Nat} :
    v ∈ valsOf m ↔ ∃ p ∈ m, p.2 = v := by
  simp [valsOf, List.mem_map]

theorem minKey?_eq_none_iff {m : KMap} : minKey? m = none ↔ m = [] := by
  cases m <;> simp [minKey?]

theorem minKey?_mem {m : KMap} {k : Nat} (h : minKey? m = some k) :
    k ∈ keysOf m := by
  induction m generalizing k with
  | nil => cases h
  | cons p rest ih =>
    simp only [minKey?] at h
    cases hr : minKey? rest with
    | none =>
      rw [hr] at h
      simp only [Option.some.injEq] at h
      simp [keysOf, ← h]
    | some k' =>
      rw [hr] at h
      simp only [Option.some.injEq, Nat.min_def] at h
      split at h
      · simp [keysOf, ← h]
      · have h2 := ih hr
        rw [h] at h2
        simp [keysOf] at h2 ⊢
        exact Or.inr h2

theorem minKey?_le {m : KMap} {k : Nat} (h : minKey? m = some k) :
    ∀ p ∈ m, k ≤ p.1 := by
  induction m generalizing k with
  | nil => intro p hp; cases hp
  | cons q rest ih =>
    intro p hp
    simp only [minKey?] at h
    cases hr : minKey? rest with
    | none =>
      have : rest = [] := minKey?_eq_none_iff.mp hr
      subst this
      rw [hr] at h
      simp only [Option.some.injEq] at h
      rcases List.mem_cons.mp hp with h1 | h1
      · subst h1; omega
      · cases h1
    | some k' =>
      rw [hr] at h
      simp only [Option.some.injEq, Nat.min_def] at h
      rcases List.mem_cons.mp hp with h1 | h1
      · subst h1
        split at h <;> omega
      · have h2 := ih hr p h1
        split at h <;> omega

theorem minKey?_eq_some_of (m : KMap) (k : Nat) (hmem : k ∈ keysOf m)
    (hle : ∀ p ∈ m, k ≤ p.1) : minKey? m = some k := by
  cases hm : minKey? m with
  | none =>
    rw [minKey?_eq_none_iff.mp hm] at hmem
    cases hmem
  | some k0 =>
    rcases List.mem_map.mp hmem with ⟨p, hp, hpk⟩
    have h1 : k0 ≤ k := hpk ▸ minKey?_le hm p hp
    rcases List.mem_map.mp (minKey?_mem hm) with ⟨q, hq, hqk⟩
    have h2 : k ≤ k0 := hqk ▸ hle q hq
    rw [Nat.le_antisymm h1 h2]

theorem mapGet_filter_ne {m : KMap} {k k' : Nat} (h : k' ≠ k) :
    mapGet (m.filter (fun p => p.1 != k)) k' = mapGet m k' := by
  induction m with
  | nil => rfl
  | cons p rest ih =>
    by_cases hp : p.1 = k
    · have h1 : (p.1 != k) = false := by simp [hp]
      have h2 : (p.1 == k') = false := by simp [hp]; omega
      simp only [List.filter_cons, h1, Bool.false_eq_true, if_false]
      rw [ih]
      simp [mapGet, List.find?, h2]
    · have h1 : (p.1 != k) = true := by simp [hp]
      simp only [List.filter_cons, h1, if_true]
      by_cases hq : p.1 = k'
      · simp [mapGet, List.find?, hq]
      · have h2 : (p.1 == k') = false := by simp [hq]
        simp only [mapGet, List.find?, h2] at ih ⊢
        exact ih

theorem mapGet_mapAdd_self (m : KMap) (k v : Nat) :
    mapGet (mapAdd m k v) k = some v := by
  simp [mapGet, mapAdd, List.find?]

theorem mapGet_mapAdd_ne (m : KMap) {k k' : Nat} (v : Nat) (h : k' ≠ k) :
    mapGet (mapAdd m k v) k' = mapGet m k' := by
  have h2 : (k == k') = false := by simp; omega
  simp only [mapGet, mapAdd, List.find?, h2]
  exact mapGet_filter_ne h

theorem not_containsKey_mapRemove (m : KMap) (k : Nat) :
    containsKey (mapRemove m k) k = false := by
  rw [containsKey_eq_false_iff, keysOf_mapRemove]
  intro hk
  simpa using (List.mem_filter.mp hk).2

theorem mapGet_mapRemove_self (m : KMap) (k : Nat) :
    mapGet (mapRemove m k) k = none := by
  have h := mapGet_isSome_iff (mapRemove m k) k
  rw [not_containsKey_mapRemove] at h
  simpa using h

theorem mapGet_mapRemove_ne (m : KMap) {k k' : Nat} (h : k' ≠ k) :
    mapGet (mapRemove m k) k' = mapGet m k' :=
  mapGet_filter_ne h

theorem getSched_mem {st : SchedState} {sid : Nat} {sch : Sched}
    (h : getSched st sid = some sch) : sch ∈ st.scheds ∧ sch.sid = sid := by
  unfold getSched at h
  exact ⟨List.mem_of_find?_eq_some h, by simpa using List.find?_some h⟩

theorem find?_sid_of_mem {l : List Sched} {sch : Sched}
    (hnd : (sidsOf l).Nodup) (hm : sch ∈ l) :
    l.find? (fun s => s.sid == sch.sid) = some sch := by
  induction l with
  | nil => cases hm
  | cons a rest ih =>
    simp only [sidsOf, List.map_cons, List.nodup_cons] at hnd
    rcases List.mem_cons.mp hm with h1 | h1
    · subst h1; simp [List.find?]
    · have hne : a.sid ≠ sch.sid := by
        intro he
        exact hnd.1 (he ▸ List.mem_map.mpr ⟨sch, h1, rfl⟩)
      have h2 : (a.sid == sch.sid) = false := by simp [hne]
      simp only [List.find?, h2]
      exact ih hnd.2 h1

theorem getSched_of_mem {st : SchedState} {sch : Sched} {sid : Nat}
    (hnd : (sidsOf st.scheds).Nodup) (hm : sch ∈ st.scheds) (hsid : sch.sid = sid) :
    getSched st sid = some sch := by
  unfold getSched
  rw [← hsid]
  exact find?_sid_of_mem hnd hm

theorem sidsOf_setSchedList (l : List Sched) (sch : Sched) :
    sidsOf (setSchedList l sch) = sidsOf l := by
  unfold sidsOf setSchedList
  rw [List.map_map]
  apply List.map_congr_left
  intro b _
  simp only [Function.comp]
  split
  next hb => simp only [beq_iff_eq] at hb; rw [hb]
  next => rfl

theorem mem_setSchedList {l : List Sched} {sch a : Sched} :
    a ∈ setSchedList l sch ↔ ∃ b ∈ l, (if b.sid = sch.sid then sch else b) = a := by
  simp [setSchedList, List.mem_map]

theorem find?_setSchedList_self {l : List Sched} {sch0 sch : Sched}
    (h : l.find? (fun s => s.sid == sch.sid) = some sch0) :
    (setSchedList l sch).find? (fun s => s.sid == sch.sid) = some sch := by
  induction l with
  | nil => exact absurd h (by simp)
  | cons a rest ih =>
    by_cases ha : a.sid = sch.sid
    · have hcons : setSchedList (a :: rest) sch = sch :: setSchedList rest sch := by
        simp [setSchedList, ha]
      rw [hcons]
      simp [List.find?]
    · have h2 : (a.sid == sch.sid) = false := by simp [ha]
      have hcons : setSchedList (a :: rest) sch = a :: setSchedList rest sch := by
        simp [setSchedList, ha]
      rw [hcons]
      simp only [List.find?, h2] at h ⊢
      exact ih h

theorem find?_setSchedList_ne {l : List Sched} {sch : Sched} {j : Nat}
    (hne : j ≠ sch.sid) :
    (setSchedList l sch).find? (fun s => s.sid == j) = l.find? (fun s => s.sid == j) := by
  induction l with
  | nil => rfl
  | cons a rest ih =>
    by_cases ha : a.sid = sch.sid
    · have hcons : setSchedList (a :: rest) sch = sch :: setSchedList rest sch := by
        simp [setSchedList, ha]
      rw [hcons]
      have h2 : (sch.sid == j) = false := by simp; omega
      have h3 : (a.sid == j) = false := by rw [ha]; exact h2
      simp only [List.find?, h2, h3]
      exact ih
    · have hcons : setSchedList (a :: rest) sch = a :: setSchedList rest sch := by
        simp [setSchedList, ha]
      rw [hcons]
      simp only [List.find?]
      cases hb : (a.sid == j) with
      | true => rfl
      | false => exact ih

theorem getSched_setSched_self {st : SchedState} {sid : Nat} {sch0 sch : Sched}
    (h : getSched st sid = some sch0) (hsid : sch.sid = sid) :
    getSched (setSched st sch) sid = some sch := by
  unfold getSched at h ⊢
  rw [← hsid] at h ⊢
  exact find?_setSchedList_self h

theorem getSched_setSched_ne {st : SchedState} {sch : Sched} {j : Nat}
    (hne : j ≠ sch.sid) :
    getSched (setSched st sch) j = getSched st j := by
  unfold getSched
  exact find?_setSchedList_ne hne

theorem findFreeStart_eq_some {m : KMap} {r : Nat} {s : Nat} (fuel : Nat)
    (hs : s ≤ r) (hr : r < u64) (hfuel : r - s < fuel)
    (hocc : ∀ t, s ≤ t → t < r → containsKey m t = true)
    (hfree : containsKey m r = false) :
    findFreeStart m s fuel = some r := by
  induction fuel generalizing s with
  | zero => omega
  | succ fuel ih =>
    by_cases hsr : s = r
    · subst hsr
      simp [findFreeStart, hfree]
    · have h1 : containsKey m s = true := hocc s le_rfl (by omega)
      have h2 : (s + 1) % u64 = s + 1 := Nat.mod_eq_of_lt (by omega)
      simp only [findFreeStart, h1, if_true, h2]
      exact ih (by omega) (by omega) (fun t ht1 ht2 => hocc t (by omega) ht2)

theorem exists_least_free {m : KMap} {s : Nat}
    (h : ∃ t, s ≤ t ∧ t < u64 ∧ containsKey m t = false) :
    ∃ r, s ≤ r ∧ r < u64 ∧ containsKey m r = false ∧
      ∀ t, s ≤ t → t < r → containsKey m t = true := by
  classical
  have hex : ∃ t, s ≤ t ∧ containsKey m t = false := by
    obtain ⟨t, h1, _, h3⟩ := h
    exact ⟨t, h1, h3⟩
  obtain ⟨t0, ht1, ht2, ht3⟩ := h
  refine ⟨Nat.find hex, (Nat.find_spec hex).1, ?_, (Nat.find_spec hex).2, ?_⟩
  · exact Nat.lt_of_le_of_lt (Nat.find_min' hex ⟨ht1, ht3⟩) ht2
  · intro t h1 h2
    have := Nat.find_min hex h2
    rcases Bool.eq_false_or_eq_true (containsKey m t) with hb | hb
    · exact hb
    · exact absurd ⟨h1, hb⟩ this

theorem findFreeStart_spec {m : KMap} {s : Nat}
    (h : ∃ t, s ≤ t ∧ t < u64 ∧ containsKey m t = false) :
    ∃ r, findFreeStart m s u64 = some r ∧ s ≤ r ∧ r < u64 ∧
      containsKey m r = false ∧ ∀ t, s ≤ t → t < r → containsKey m t = true := by
  obtain ⟨r, h1, h2, h3, h4⟩ := exists_least_free h
  exact ⟨r, findFreeStart_eq_some u64 h1 h2 (by omega) h4 h3, h1, h2, h3, h4⟩

theorem findFreeStart_len_bound {m : KMap} {s r : Nat}
    (hocc : ∀ t, s ≤ t → t < r → containsKey m t = true) :
    r - s ≤ m.length := by
  have hsub : List.range' s (r - s) ⊆ keysOf m := by
    intro t ht
    rw [List.mem_range'_1] at ht
    exact (containsKey_iff m t).mp (hocc t (by omega) (by omega))
  have hnd : (List.range' s (r - s)).Nodup := List.nodup_range' _ _
  have hle := (List.subperm_of_subset hnd hsub).length_le
  rw [List.length_range'] at hle
  have : (keysOf m).length = m.length := List.length_map m Prod.fst
  omega

theorem key_entry_unique {m : KMap} (hnd : (keysOf m).Nodup) {p q : Nat × Nat}
    (hp : p ∈ m) (hq : q ∈ m) (h : p.1 = q.1) : p = q := by
  have h1 : mapGet m p.1 = some p.2 := mapGet_of_mem hnd (show (p.1, p.2) ∈ m from hp)
  have h2 : mapGet m q.1 = some q.2 := mapGet_of_mem hnd (show (q.1, q.2) ∈ m from hq)
  rw [h] at h1
  rw [h1] at h2
  have : p.2 = q.2 := by simpa using h2
  exact Prod.ext h this

theorem valsOf_mapRemove_subset {m : KMap} {k x : Nat}
    (h : x ∈ valsOf (mapRemove m k)) : x ∈ valsOf m := by
  rw [mem_valsOf] at h ⊢
  obtain ⟨p, hp, h2⟩ := h
  exact ⟨p, (mem_mapRemove.mp hp).1, h2⟩

theorem mem_setSchedList_of_ne {l : List Sched} {sch b : Sched}
    (hb : b ∈ l) (hne : b.sid ≠ sch.sid) : b ∈ setSchedList l sch := by
  rw [mem_setSchedList]
  exact ⟨b, hb, by simp [hne]⟩

theorem self_mem_setSchedList {l : List Sched} {sch b : Sched}
    (hb : b ∈ l) (he : b.sid = sch.sid) : sch ∈ setSchedList l sch := by
  rw [mem_setSchedList]
  exact ⟨b, hb, by simp [he]⟩

theorem WF_queue_entry {st : SchedState} {sid : Nat} {sch : Sched}
    (hwf : WF st) (hg : getSched st sid = some sch) (hs : sch.scheduled = true) :
    (sch.start, sid) ∈ st.queue := by
  obtain ⟨hnd, hqk, hik, hqe, hie, hsm⟩ := hwf
  obtain ⟨hmem, hsid⟩ := getSched_mem hg
  have h1 := ((hsm sch hmem).2.1).mp hs
  rw [hsid, mem_valsOf] at h1
  obtain ⟨p, hp, hv⟩ := h1
  obtain ⟨sch2, hm2, hsid2, hstart2, _⟩ := hqe p hp
  have hg2 : getSched st sid = some sch2 := getSched_of_mem hnd hm2 (by rw [hsid2, hv])
  rw [hg] at hg2
  have : sch = sch2 := by simpa using hg2
  subst this
  have : p = (sch.start, sid) := Prod.ext hstart2.symm hv
  rw [← this]
  exact hp

theorem WF_idle_entry {st : SchedState} {sid : Nat} {sch : Sched}
    (hwf : WF st) (hg : getSched st sid = some sch) (hs : sch.scheduled = false) :
    (sid, sid) ∈ st.idle := by
  obtain ⟨hnd, hqk, hik, hqe, hie, hsm⟩ := hwf
  obtain ⟨hmem, hsid⟩ := getSched_mem hg
  have h1 := ((hsm sch hmem).2.2).mp hs
  rw [hsid, mem_valsOf] at h1
  obtain ⟨p, hp, hv⟩ := h1
  have hk := (hie p hp).1
  have : p = (sid, sid) := Prod.ext (by omega) hv
  rw [← this]
  exact hp

theorem queue_remove_detach {st : SchedState} {sid : Nat} {sch : Sched}
    (hwf : WF st) (hg : getSched st sid = some sch) (hs : sch.scheduled = true) :
    iot_schedule_queue_remove st sid =
      { st with queue := mapRemove st.queue sch.start } ∧
    WFexcept { st with queue := mapRemove st.queue sch.start } sid := by
  have hentry := WF_queue_entry hwf hg hs
  obtain ⟨hnd, hqk, hik, hqe, hie, hsm⟩ := hwf
  obtain ⟨hmem, hsid⟩ := getSched_mem hg
  constructor
  · simp [iot_schedule_queue_remove, hg]
  · refine ⟨hnd, nodup_keysOf_mapRemove _ hqk, hik, ?_, ?_, ?_, ?_, ?_⟩
    · intro p hp
      exact hqe p (mem_mapRemove.mp hp).1
    · intro p hp
      exact hie p hp
    · intro hb
      rw [mem_valsOf] at hb
      obtain ⟨p, hp, hv⟩ := hb
      obtain ⟨hp1, hp2⟩ := mem_mapRemove.mp hp
      obtain ⟨sch2, hm2, hsid2, hstart2, _⟩ := hqe p hp1
      have hg2 : getSched st sid = some sch2 :=
        getSched_of_mem hnd hm2 (by rw [hsid2, hv])
      rw [hg] at hg2
      have he : sch = sch2 := by simpa using hg2
      exact hp2 (by rw [← hstart2, ← he])
    · intro hb
      have h1 := ((hsm sch hmem).2.2).mpr (by rw [hsid]; exact hb)
      rw [hs] at h1
      exact absurd h1 (by simp)
    · intro b hb
      refine ⟨(hsm b hb).1, ?_⟩
      intro hbne
      refine ⟨⟨?_, ?_⟩, (hsm b hb).2.2⟩
      · intro hbs
        have h1 := ((hsm b hb).2.1).mp hbs
        rw [mem_valsOf] at h1 ⊢
        obtain ⟨p, hp, hv⟩ := h1
        refine ⟨p, mem_mapRemove.mpr ⟨hp, ?_⟩, hv⟩
        intro hps
        have hpe : p = (sch.start, sid) := key_entry_unique hqk hp hentry hps
        rw [hpe] at hv
        exact hbne (by simpa using hv.symm)
      · intro hbs
        exact ((hsm b hb).2.1).mpr (valsOf_mapRemove_subset hbs)

theorem idle_remove_detach {st : SchedState} {sid : Nat} {sch : Sched}
    (hwf : WF st) (hg : getSched st sid = some sch) (hs : sch.scheduled = false) :
    iot_schedule_idle_remove st sid =
      { st with idle := mapRemove st.idle sid } ∧
    WFexcept { st with idle := mapRemove st.idle sid } sid := by
  obtain ⟨hnd, hqk, hik, hqe, hie, hsm⟩ := hwf
  obtain ⟨hmem, hsid⟩ := getSched_mem hg
  constructor
  · simp [iot_schedule_idle_remove, hg, hsid]
  · refine ⟨hnd, hqk, nodup_keysOf_mapRemove _ hik, ?_, ?_, ?_, ?_, ?_⟩
    · intro p hp
      exact hqe p hp
    · intro p hp
      exact hie p (mem_mapRemove.mp hp).1
    · intro hb
      have h1 := ((hsm sch hmem).2.1).mpr (by rw [hsid]; exact hb)
      rw [hs] at h1
      exact absurd h1 (by simp)
    · intro hb
      rw [mem_valsOf] at hb
      obtain ⟨p, hp, hv⟩ := hb
      obtain ⟨hp1, hp2⟩ := mem_mapRemove.mp hp
      have hk := (hie p hp1).1
      omega
    · intro b hb
      refine ⟨(hsm b hb).1, ?_⟩
      intro hbne
      refine ⟨(hsm b hb).2.1, ⟨?_, ?_⟩⟩
      · intro hbs
        have hgb : getSched st b.sid = some b := getSched_of_mem hnd hb rfl
        have hentry := WF_idle_entry ⟨hnd, hqk, hik, hqe, hie, hsm⟩ hgb hbs
        rw [mem_valsOf]
        exact ⟨(b.sid, b.sid), mem_mapRemove.mpr ⟨hentry, hbne⟩, rfl⟩
      · intro hbs
        exact ((hsm b hb).2.2).mpr (valsOf_mapRemove_subset hbs)

theorem setSched_wfexcept {st : SchedState} {sid : Nat} {sch' : Sched}
    (hwf : WFexcept st sid) (hsid : sch'.sid = sid) (hlt : sch'.start < u64) :
    WFexcept (setSched st sch') sid := by
  obtain ⟨hnd, hqk, hik, hqe, hie, hnq, hni, hsm⟩ := hwf
  refine ⟨?_, hqk, hik, ?_, ?_, hnq, hni, ?_⟩
  · show (sidsOf (setSchedList st.scheds sch')).Nodup
    rw [sidsOf_setSchedList]
    exact hnd
  · intro p hp
    obtain ⟨sch2, hm2, hsid2, hrest⟩ := hqe p hp
    have hne : sch2.sid ≠ sch'.sid := by
      rw [hsid, hsid2]
      intro he
      exact hnq (he ▸ List.mem_map.mpr ⟨p, hp, rfl⟩)
    exact ⟨sch2, mem_setSchedList_of_ne hm2 hne, hsid2, hrest⟩
  · intro p hp
    obtain ⟨hkk, sch2, hm2, hsid2, hrest⟩ := hie p hp
    have hne : sch2.sid ≠ sch'.sid := by
      rw [hsid, hsid2]
      intro he
      exact hni (he ▸ List.mem_map.mpr ⟨p, hp, rfl⟩)
    exact ⟨hkk, sch2, mem_setSchedList_of_ne hm2 hne, hsid2, hrest⟩
  · intro b hb
    rcases mem_setSchedList.mp hb with ⟨b0, hb0, hbeq⟩
    by_cases hc : b0.sid = sch'.sid
    · rw [if_pos hc] at hbeq
      subst hbeq
      refine ⟨hlt, ?_⟩
      intro hbne
      exact absurd hsid hbne
    · rw [if_neg hc] at hbeq
      subst hbeq
      exact hsm b0 hb0

theorem filter_ne_eq_self {m : KMap} {k : Nat} (h : containsKey m k = false) :
    m.filter (fun p => p.1 != k) = m := by
  rw [containsKey_eq_false_iff] at h
  apply List.filter_eq_self.mpr
  intro p hp
  simp only [bne_iff_ne, ne_eq]
  intro he
  exact h (he ▸ List.mem_map.mpr ⟨p, hp, rfl⟩)

theorem mapAdd_eq_cons {m : KMap} {k : Nat} (v : Nat)
    (h : containsKey m k = false) : mapAdd m k v = (k, v) :: m := by
  unfold mapAdd
  rw [filter_ne_eq_self h]

theorem findFreeStart_ok {m : KMap} {r : Nat} {s : Nat} (fuel : Nat) (hs : s < u64)
    (h : findFreeStart m s fuel = some r) :
    r < u64 ∧ containsKey m r = false := by
  induction fuel generalizing s with
  | zero => exact absurd h (by simp [findFreeStart])
  | succ fuel ih =>
    simp only [findFreeStart] at h
    by_cases hc : containsKey m s = true
    · rw [hc, if_pos rfl] at h
      exact ih (Nat.mod_lt _ (by decide)) h
    · have hc2 : containsKey m s = false := by simpa using hc
      rw [hc2] at h
      simp only [Bool.false_eq_true, if_false, Option.some.injEq] at h
      subst h
      exact ⟨hs, hc2⟩

theorem queue_add_wf {st : SchedState} {sid : Nat} {sch : Sched}
    {st' : SchedState} {front : Bool}
    (hwf : WFexcept st sid) (hg : getSched st sid = some sch)
    (h : iot_schedule_queue_add st sid = some (st', front)) :
    ∃ r, findFreeStart st.queue sch.start u64 = some r ∧
      containsKey st.queue r = false ∧ r < u64 ∧
      st'.queue = (r, sid) :: st.queue ∧
      st'.idle = st.idle ∧
      st'.compState = st.compState ∧
      st'.refs = st.refs ∧
      st'.schdTime = st.schdTime ∧
      st'.nextId = st.nextId ∧
      st'.scheds = setSchedList st.scheds { sch with start := r, scheduled := true } ∧
      getSched st' sid = some { sch with start := r, scheduled := true } ∧
      (∀ j, j ≠ sid → getSched st' j = getSched st j) ∧
      front = isNext st'.queue sid ∧
      WF st' := by
  obtain ⟨hmem, hsid⟩ := getSched_mem hg
  have hslt : sch.start < u64 := (hwf.2.2.2.2.2.2.2 sch hmem).1
  simp only [iot_schedule_queue_add, hg] at h
  cases hf : findFreeStart st.queue sch.start u64 with
  | none => rw [hf] at h; exact absurd h (by simp)
  | some r =>
    rw [hf] at h
    simp only [Option.some.injEq, Prod.mk.injEq] at h
    obtain ⟨hst, hfr⟩ := h
    subst hst
    obtain ⟨hrlt, hrfree⟩ := findFreeStart_ok u64 hslt hf
    obtain ⟨hnd, hqk, hik, hqe, hie, hnq, hni, hsm⟩ := hwf
    have hcons : mapAdd st.queue r sid = (r, sid) :: st.queue := mapAdd_eq_cons sid hrfree
    have hqueue : mapAdd st.queue r sid = (r, sid) :: st.queue := hcons
    have hsid' : ({ sch with start := r, scheduled := true } : Sched).sid = sid := hsid
    have hget : (setSchedList st.scheds { sch with start := r, scheduled := true }).find?
        (fun s => s.sid == sid) = some { sch with start := r, scheduled := true } := by
      have := getSched_setSched_self hg hsid'
      exact this
    have hgetne : ∀ j, j ≠ sid →
        (setSchedList st.scheds { sch with start := r, scheduled := true }).find?
          (fun s => s.sid == j) = st.scheds.find? (fun s => s.sid == j) := by
      intro j hj
      exact find?_setSchedList_ne (by rw [hsid']; exact hj)
    have hrmem : r ∉ keysOf st.queue := (containsKey_eq_false_iff _ _).mp hrfree
    refine ⟨r, rfl, hrfree, hrlt, hqueue, rfl, rfl, rfl, rfl, rfl, rfl, hget, hgetne, hfr.symm, ?_⟩
    refine ⟨?_, ?_, hik, ?_, ?_, ?_⟩
    · show (sidsOf (setSchedList st.scheds _)).Nodup
      rw [sidsOf_setSchedList]
      exact hnd
    · show (keysOf (mapAdd st.queue r sid)).Nodup
      rw [hqueue]
      exact List.nodup_cons.mpr ⟨hrmem, hqk⟩
    · intro p hp
      rw [show (mapAdd st.queue r sid : KMap) = (r, sid) :: st.queue from hqueue] at hp
      rcases List.mem_cons.mp hp with h1 | h1
      · subst h1
        refine ⟨{ sch with start := r, scheduled := true }, ?_, hsid', rfl, rfl⟩
        exact self_mem_setSchedList hmem rfl
      · obtain ⟨sch2, hm2, hsid2, hrest⟩ := hqe p h1
        have hne : sch2.sid ≠ sid := by
          rw [hsid2]
          intro he
          exact hnq (he ▸ List.mem_map.mpr ⟨p, h1, rfl⟩)
        refine ⟨sch2, ?_, hsid2, hrest⟩
        exact mem_setSchedList_of_ne hm2 (by rw [hsid']; exact hne)
    · intro p hp
      obtain ⟨hkk, sch2, hm2, hsid2, hrest⟩ := hie p hp
      have hne : sch2.sid ≠ sid := by
        rw [hsid2]
        intro he
        exact hni (he ▸ List.mem_map.mpr ⟨p, hp, rfl⟩)
      refine ⟨hkk, sch2, ?_, hsid2, hrest⟩
      exact mem_setSchedList_of_ne hm2 (by rw [hsid']; exact hne)
    · intro b hb
      rcases mem_setSchedList.mp hb with ⟨b0, hb0, hbeq⟩
      by_cases hc : b0.sid = sid
      · rw [hsid', if_pos hc] at hbeq
        subst hbeq
        refine ⟨hrlt, ?_, ?_⟩
        · constructor
          · intro _
            show sid ∈ valsOf (mapAdd st.queue r sid)
            rw [hqueue]
            simp [valsOf]
          · intro _
            rfl
        · constructor
          · intro hfalse
            cases hfalse
          · intro hbs
            exact absurd hbs hni
      · rw [hsid', if_neg hc] at hbeq
        subst hbeq
        obtain ⟨hb1, hb2⟩ := hsm b0 hb0
        obtain ⟨hiff1, hiff2⟩ := hb2 hc
        refine ⟨hb1, ?_, hiff2⟩
        show b0.scheduled = true ↔ b0.sid ∈ valsOf (mapAdd st.queue r sid)
        rw [hqueue]
        rw [show valsOf ((r, sid) :: st.queue) = sid :: valsOf st.queue from rfl]
        constructor
        · intro hbs
          exact List.mem_cons.mpr (Or.inr (hiff1.mp hbs))
        · intro hbs
          rcases List.mem_cons.mp hbs with h1 | h1
          · exact absurd h1 hc
          · exact hiff1.mpr h1

theorem idle_add_wf {st : SchedState} {sid : Nat} {sch : Sched}
    (hwf : WFexcept st sid) (hg : getSched st sid = some sch) :
    iot_schedule_idle_add st sid =
      { setSched st { sch with scheduled := false } with
        idle := (sid, sid) :: st.idle } ∧
    WF { setSched st { sch with scheduled := false } with
        idle := (sid, sid) :: st.idle } := by
  obtain ⟨hmem, hsid⟩ := getSched_mem hg
  obtain ⟨hnd, hqk, hik, hqe, hie, hnq, hni, hsm⟩ := hwf
  have hkeysvals : keysOf st.idle = valsOf st.idle := by
    unfold keysOf valsOf
    apply List.map_congr_left
    intro p hp
    exact (hie p hp).1
  have hnik : sid ∉ keysOf st.idle := by rw [hkeysvals]; exact hni
  have hconsi : mapAdd st.idle sid sid = (sid, sid) :: st.idle :=
    mapAdd_eq_cons sid ((containsKey_eq_false_iff _ _).mpr hnik)
  have hsid' : ({ sch with scheduled := false } : Sched).sid = sid := hsid
  constructor
  · simp only [iot_schedule_idle_add, hg, hsid, hconsi]
  · refine ⟨?_, hqk, ?_, ?_, ?_, ?_⟩
    · show (sidsOf (setSchedList st.scheds _)).Nodup
      rw [sidsOf_setSchedList]
      exact hnd
    · show (sid :: keysOf st.idle).Nodup
      exact List.nodup_cons.mpr ⟨hnik, hik⟩
    · intro p hp
      obtain ⟨sch2, hm2, hsid2, hrest⟩ := hqe p hp
      have hne : sch2.sid ≠ sid := by
        rw [hsid2]
        intro he
        exact hnq (he ▸ List.mem_map.mpr ⟨p, hp, rfl⟩)
      refine ⟨sch2, ?_, hsid2, hrest⟩
      exact mem_setSchedList_of_ne hm2 (by rw [hsid']; exact hne)
    · intro p hp
      rcases List.mem_cons.mp hp with h1 | h1
      · subst h1
        refine ⟨rfl, { sch with scheduled := false }, ?_, hsid', rfl⟩
        exact self_mem_setSchedList hmem rfl
      · obtain ⟨hkk, sch2, hm2, hsid2, hrest⟩ := hie p h1
        have hne : sch2.sid ≠ sid := by
          rw [hsid2]
          intro he
          exact hni (he ▸ List.mem_map.mpr ⟨p, h1, rfl⟩)
        refine ⟨hkk, sch2, ?_, hsid2, hrest⟩
        exact mem_setSchedList_of_ne hm2 (by rw [hsid']; exact hne)
    · intro b hb
      rcases mem_setSchedList.mp hb with ⟨b0, hb0, hbeq⟩
      by_cases hc : b0.sid = sid
      · rw [hsid', if_pos hc] at hbeq
        subst hbeq
        refine ⟨(hsm sch hmem).1, ?_, ?_⟩
        · constructor
          · intro hfalse
            cases hfalse
          · intro hbs
            exact absurd hbs hnq
        · constructor
          · intro _
            show sid ∈ valsOf ((sid, sid) :: st.idle)
            simp [valsOf]
          · intro _
            rfl
      · rw [hsid', if_neg hc] at hbeq
        subst hbeq
        obtain ⟨hb1, hb2⟩ := hsm b0 hb0
        obtain ⟨hiff1, hiff2⟩ := hb2 hc
        refine ⟨hb1, hiff1, ?_⟩
        show b0.scheduled = false ↔ b0.sid ∈ valsOf ((sid, sid) :: st.idle)
        rw [show valsOf ((sid, sid) :: st.idle) = sid :: valsOf st.idle from rfl]
        constructor
        · intro hbs
          exact List.mem_cons.mpr (Or.inr (hiff2.mp hbs))
        · intro hbs
          rcases List.mem_cons.mp hbs with h1 | h1
          · exact absurd h1 hc
          · exact hiff2.mpr h1

theorem sched_remove_spec {st : SchedState} {sid : Nat} {sch : Sched}
    (hwf : WF st) (hg : getSched st sid = some sch) (hs : sch.scheduled = true) :
    iot_schedule_remove st sid =
      ({ st with
          scheds := setSchedList st.scheds { sch with scheduled := false },
          queue := mapRemove st.queue sch.start,
          idle := (sid, sid) :: st.idle }, true) ∧
    WF { st with
          scheds := setSchedList st.scheds { sch with scheduled := false },
          queue := mapRemove st.queue sch.start,
          idle := (sid, sid) :: st.idle } := by
  obtain ⟨hrm, hwfx⟩ := queue_remove_detach hwf hg hs
  have hg1 : getSched { st with queue := mapRemove st.queue sch.start } sid = some sch := hg
  obtain ⟨hia, hwf2⟩ := idle_add_wf hwfx hg1
  constructor
  · simp only [iot_schedule_remove, hg, hs, if_true]
    rw [hrm, hia]
    rfl
  · exact hwf2

theorem setSchedList_twice {l : List Sched} {a b : Sched} (h : a.sid = b.sid) :
    setSchedList (setSchedList l a) b = setSchedList l b := by
  unfold setSchedList
  rw [List.map_map]
  apply List.map_congr_left
  intro s _
  simp only [Function.comp]
  by_cases hs : s.sid = a.sid
  · have h1 : (s.sid == a.sid) = true := by simp [hs]
    have h2 : (a.sid == b.sid) = true := by simp [h]
    have h3 : (s.sid == b.sid) = true := by simp [hs, h]
    simp [h1, h2, h3]
  · have h1 : (s.sid == a.sid) = false := by simp [hs]
    simp [h1]

theorem queue_update_wf {st : SchedState} {sid next : Nat} {sch : Sched}
    {st' : SchedState} {front : Bool}
    (hwf : WF st) (hg : getSched st sid = some sch) (hs : sch.scheduled = true)
    (hnext : next < u64)
    (h : iot_schedule_queue_update st sid next = some (st', front)) :
    ∃ r, findFreeStart (mapRemove st.queue sch.start) next u64 = some r ∧
      containsKey (mapRemove st.queue sch.start) r = false ∧ r < u64 ∧
      st'.queue = (r, sid) :: mapRemove st.queue sch.start ∧
      st'.idle = st.idle ∧
      st'.compState = st.compState ∧
      st'.refs = st.refs ∧
      st'.schdTime = st.schdTime ∧
      st'.nextId = st.nextId ∧
      st'.scheds = setSchedList st.scheds { sch with start := r, scheduled := true } ∧
      getSched st' sid = some { sch with start := r, scheduled := true } ∧
      (∀ j, j ≠ sid → getSched st' j = getSched st j) ∧
      front = isNext st'.queue sid ∧
      WF st' := by
  obtain ⟨hmem, hsid⟩ := getSched_mem hg
  obtain ⟨hrm, hwfx⟩ := queue_remove_detach hwf hg hs
  simp only [iot_schedule_queue_update] at h
  rw [hrm] at h
  have hg1 : getSched { st with queue := mapRemove st.queue sch.start } sid = some sch := hg
  rw [hg1] at h
  have hsid2 : ({ sch with start := next } : Sched).sid = sid := hsid
  have hwfx2 : WFexcept
      (setSched { st with queue := mapRemove st.queue sch.start } { sch with start := next })
      sid := setSched_wfexcept hwfx hsid2 hnext
  have hg2 : getSched
      (setSched { st with queue := mapRemove st.queue sch.start } { sch with start := next })
      sid = some { sch with start := next } := getSched_setSched_self hg1 hsid2
  obtain ⟨r, hf, hfree, hrlt, hq, hi, hcs, hrf, hsch, hni2, hscheds, hget, hgetne, hfr, hwf2⟩ :=
    queue_add_wf hwfx2 hg2 h
  have htw : setSchedList (setSchedList st.scheds { sch with start := next })
      { sch with start := r, scheduled := true } =
      setSchedList st.scheds { sch with start := r, scheduled := true } :=
    setSchedList_twice rfl
  have hschedseq : st'.scheds =
      setSchedList st.scheds { sch with start := r, scheduled := true } := by
    rw [hscheds]
    exact htw
  refine ⟨r, hf, hfree, hrlt, hq, hi, hcs, hrf, hsch, hni2, hschedseq, hget, ?_, hfr, hwf2⟩
  intro j hj
  rw [hgetne j hj]
  show (setSchedList st.scheds { sch with start := next }).find? (fun s => s.sid == j) = _
  exact find?_setSchedList_ne (by rw [hsid2]; exact hj)

theorem sched_add_noop {st : SchedState} {sid : Nat} {sch : Sched}
    (hg : getSched st sid = some sch) (hs : sch.scheduled = true) :
    iot_schedule_add st sid = some (st, false, []) := by
  simp [iot_schedule_add, hg, hs]

theorem sched_add_spec {st : SchedState} {sid : Nat} {sch : Sched}
    {st' : SchedState} {ret : Bool} {evs : List Event}
    (hwf : WF st) (hg : getSched st sid = some sch) (hs : sch.scheduled = false)
    (h : iot_schedule_add st sid = some (st', ret, evs)) :
    ret = true ∧
    ∃ r, findFreeStart st.queue sch.start u64 = some r ∧
      containsKey st.queue r = false ∧ r < u64 ∧
      st'.queue = (r, sid) :: st.queue ∧
      st'.idle = mapRemove st.idle sid ∧
      st'.compState = st.compState ∧
      getSched st' sid = some { sch with start := r, scheduled := true } ∧
      (∀ j, j ≠ sid → getSched st' j = getSched st j) ∧
      evs = (if isNext st'.queue sid && (st.compState == CompState.running)
             then [Event.signal] else []) ∧
      WF st' := by
  obtain ⟨hrm, hwfx⟩ := idle_remove_detach hwf hg hs
  simp only [iot_schedule_add, hg, hs, Bool.false_eq_true, if_false] at h
  rw [hrm] at h
  have hg1 : getSched { st with idle := mapRemove st.idle sid } sid = some sch := hg
  cases hqa : iot_schedule_queue_add { st with idle := mapRemove st.idle sid } sid with
  | none => rw [hqa] at h; exact absurd h (by simp)
  | some res =>
    rw [hqa] at h
    simp only [Option.some.injEq, Prod.mk.injEq] at h
    obtain ⟨hst, hret, hevs⟩ := h
    have hqa2 : iot_schedule_queue_add { st with idle := mapRemove st.idle sid } sid =
        some (res.1, res.2) := by rw [hqa]
    obtain ⟨r, hf, hfree, hrlt, hq, hi, hcs, hrf, hsch, hni2, hscheds, hget, hgetne, hfr, hwf2⟩ :=
      queue_add_wf hwfx hg1 hqa2
    subst hst
    refine ⟨hret.symm, r, hf, hfree, hrlt, hq, ?_, hcs, hget, hgetne, ?_, hwf2⟩
    · rw [hi]
    · rw [← hevs, ← hfr]
      rw [show ({ st with idle := mapRemove st.idle sid } : SchedState).compState
            = st.compState from rfl] at hcs
      rw [hcs]

theorem sched_reset_unscheduled {st : SchedState} {sid : Nat} {sch : Sched} {now : Nat}
    (hg : getSched st sid = some sch) (hs : sch.scheduled = false) :
    iot_schedule_reset st sid now =
      some (setSched st { sch with start := (sch.period + now % u64) % u64 }, []) := by
  simp [iot_schedule_reset, hg, hs]

theorem sched_reset_spec {st : SchedState} {sid : Nat} {sch : Sched} {now : Nat}
    {st' : SchedState} {evs : List Event}
    (hwf : WF st) (hg : getSched st sid = some sch) (hs : sch.scheduled = true)
    (h : iot_schedule_reset st sid now = some (st', evs)) :
    ∃ r, findFreeStart (mapRemove st.queue sch.start)
        ((sch.period + now % u64) % u64) u64 = some r ∧
      containsKey (mapRemove st.queue sch.start) r = false ∧ r < u64 ∧
      st'.queue = (r, sid) :: mapRemove st.queue sch.start ∧
      st'.idle = st.idle ∧
      st'.compState = st.compState ∧
      getSched st' sid = some { sch with start := r, scheduled := true } ∧
      (∀ j, j ≠ sid → getSched st' j = getSched st j) ∧
      evs = (if isNext st'.queue sid && (st.compState == CompState.running)
             then [Event.signal] else []) ∧
      WF st' := by
  simp only [iot_schedule_reset, hg, hs, if_true] at h
  cases hqu : iot_schedule_queue_update st sid ((sch.period + now % u64) % u64) with
  | none => rw [hqu] at h; exact absurd h (by simp)
  | some res =>
    rw [hqu] at h
    simp only [Option.some.injEq, Prod.mk.injEq] at h
    obtain ⟨hst, hevs⟩ := h
    have hqu2 : iot_schedule_queue_update st sid ((sch.period + now % u64) % u64) =
        some (res.1, res.2) := by rw [hqu]
    have hnext : (sch.period + now % u64) % u64 < u64 := Nat.mod_lt _ (by decide)
    obtain ⟨r, hf, hfree, hrlt, hq, hi, hcs, hrf, hsch, hni2, hscheds, hget, hgetne, hfr, hwf2⟩ :=
      queue_update_wf hwf hg hs hnext hqu2
    subst hst
    refine ⟨r, hf, hfree, hrlt, hq, hi, hcs, hget, hgetne, ?_, hwf2⟩
    rw [← hevs, ← hfr, hcs]

theorem setSchedList_noop {l : List Sched} {sch : Sched}
    (h : ∀ b ∈ l, b.sid ≠ sch.sid) : setSchedList l sch = l := by
  unfold setSchedList
  have : ∀ b ∈ l, (fun s => if s.sid == sch.sid then sch else s) b = id b := by
    intro b hb
    simp [h b hb]
  rw [List.map_congr_left this, List.map_id]

theorem sched_create_spec {st : SchedState} {period startOff rpt : Nat}
    {hasPool hasFreeFn : Bool} {now : Nat}
    (hwf : WF st) (hfresh : ∀ b ∈ st.scheds, b.sid ≠ st.nextId) :
    iot_schedule_create st period startOff rpt hasPool hasFreeFn now =
      ({ st with
          scheds :=
            { sid := st.nextId
              start := (now % u64 + startOff % u64) % u64
              period := period % u64
              rpt := rpt % u64
              scheduled := false
              dropped := 0
              hasPool := hasPool
              hasRunCb := false
              hasAbortCb := false
              hasFreeFn := hasFreeFn } :: st.scheds,
          idle := (st.nextId, st.nextId) :: st.idle,
          nextId := st.nextId + 1 }, st.nextId) ∧
    WF { st with
          scheds :=
            { sid := st.nextId
              start := (now % u64 + startOff % u64) % u64
              period := period % u64
              rpt := rpt % u64
              scheduled := false
              dropped := 0
              hasPool := hasPool
              hasRunCb := false
              hasAbortCb := false
              hasFreeFn := hasFreeFn } :: st.scheds,
          idle := (st.nextId, st.nextId) :: st.idle,
          nextId := st.nextId + 1 } := by
  obtain ⟨hnd, hqk, hik, hqe, hie, hsm⟩ := hwf
  set sch0 : Sched :=
    { sid := st.nextId
      start := (now % u64 + startOff % u64) % u64
      period := period % u64
      rpt := rpt % u64
      scheduled := false
      dropped := 0
      hasPool := hasPool
      hasRunCb := false
      hasAbortCb := false
      hasFreeFn := hasFreeFn } with hsch0
  have hg1 : getSched
      { st with scheds := sch0 :: st.scheds, nextId := st.nextId + 1 } st.nextId =
      some sch0 := by
    show (sch0 :: st.scheds).find? (fun s => s.sid == st.nextId) = some sch0
    simp [List.find?, hsch0]
  have hwfx : WFexcept
      { st with scheds := sch0 :: st.scheds, nextId := st.nextId + 1 } st.nextId := by
    refine ⟨?_, hqk, hik, ?_, ?_, ?_, ?_, ?_⟩
    · show (st.nextId :: sidsOf st.scheds).Nodup
      refine List.nodup_cons.mpr ⟨?_, hnd⟩
      intro hmem
      obtain ⟨b, hb, hbe⟩ := List.mem_map.mp hmem
      exact hfresh b hb hbe
    · intro p hp
      obtain ⟨sch2, hm2, hrest⟩ := hqe p hp
      exact ⟨sch2, List.mem_cons.mpr (Or.inr hm2), hrest⟩
    · intro p hp
      obtain ⟨hkk, sch2, hm2, hrest⟩ := hie p hp
      exact ⟨hkk, sch2, List.mem_cons.mpr (Or.inr hm2), hrest⟩
    · intro hmem
      rw [mem_valsOf] at hmem
      obtain ⟨p, hp, hv⟩ := hmem
      obtain ⟨sch2, hm2, hsid2, _⟩ := hqe p hp
      exact hfresh sch2 hm2 (by rw [hsid2, hv])
    · intro hmem
      rw [mem_valsOf] at hmem
      obtain ⟨p, hp, hv⟩ := hmem
      obtain ⟨_, sch2, hm2, hsid2, _⟩ := hie p hp
      exact hfresh sch2 hm2 (by rw [hsid2, hv])
    · intro b hb
      rcases List.mem_cons.mp hb with h1 | h1
      · subst h1
        refine ⟨Nat.mod_lt _ (by decide), ?_⟩
        intro hne
        exact absurd rfl hne
      · refine ⟨(hsm b h1).1, ?_⟩
        intro _
        exact ⟨(hsm b h1).2.1, (hsm b h1).2.2⟩
  obtain ⟨hia, hwf2⟩ := idle_add_wf hwfx hg1
  have hnoop : setSchedList (sch0 :: st.scheds) sch0 = sch0 :: st.scheds := by
    unfold setSchedList
    rw [List.map_cons]
    congr 1
    · simp
    · exact setSchedList_noop (fun b hb => hfresh b hb)
  have hkey : setSchedList (sch0 :: st.scheds) { sch0 with scheduled := false } =
      sch0 :: st.scheds := hnoop
  have hresult : iot_schedule_idle_add
      { st with scheds := sch0 :: st.scheds, nextId := st.nextId + 1 } st.nextId =
      { st with
          scheds := sch0 :: st.scheds,
          idle := (st.nextId, st.nextId) :: st.idle,
          nextId := st.nextId + 1 } := by
    rw [hia]
    show ({ st with
        scheds := setSchedList (sch0 :: st.scheds) { sch0 with scheduled := false },
        idle := (st.nextId, st.nextId) :: st.idle,
        nextId := st.nextId + 1 } : SchedState) = _
    rw [hkey]
  rw [← hia] at hwf2
  rw [hresult] at hwf2
  constructor
  · show (iot_schedule_idle_add
      { st with scheds := sch0 :: st.scheds, nextId := st.nextId + 1 } st.nextId,
        st.nextId) = _
    rw [hresult]
  · exact hwf2

theorem sidsOf_filter (l : List Sched) (x : Nat) :
    sidsOf (l.filter (fun s => s.sid != x)) = (sidsOf l).filter (fun i => i != x) := by
  induction l with
  | nil => rfl
  | cons a rest ih =>
    by_cases ha : a.sid = x
    · have h1 : (a.sid != x) = false := by simp [ha]
      simp only [sidsOf, List.filter_cons, List.map_cons, h1, Bool.false_eq_true,
        if_false] at *
      exact ih
    · have h1 : (a.sid != x) = true := by simp [ha]
      simp only [sidsOf, List.filter_cons, List.map_cons, h1, if_true] at *
      simp [ih]

theorem drop_sched_wf {st : SchedState} {sid : Nat}
    (hwf : WFexcept st sid) :
    WF { st with scheds := st.scheds.filter (fun s => s.sid != sid) } := by
  obtain ⟨hnd, hqk, hik, hqe, hie, hnq, hni, hsm⟩ := hwf
  refine ⟨?_, hqk, hik, ?_, ?_, ?_⟩
  · show (sidsOf (st.scheds.filter _)).Nodup
    rw [sidsOf_filter]
    exact hnd.filter _
  · intro p hp
    obtain ⟨sch2, hm2, hsid2, hrest⟩ := hqe p hp
    have hne : sch2.sid ≠ sid := by
      intro he
      exact hnq (mem_valsOf.mpr ⟨p, hp, by omega⟩)
    exact ⟨sch2, List.mem_filter.mpr ⟨hm2, by simp [hne]⟩, hsid2, hrest⟩
  · intro p hp
    obtain ⟨hkk, sch2, hm2, hsid2, hrest⟩ := hie p hp
    have hne : sch2.sid ≠ sid := by
      intro he
      exact hni (mem_valsOf.mpr ⟨p, hp, by omega⟩)
    exact ⟨hkk, sch2, List.mem_filter.mpr ⟨hm2, by simp [hne]⟩, hsid2, hrest⟩
  · intro b hb
    obtain ⟨hbm, hbne⟩ := List.mem_filter.mp hb
    have hbne2 : b.sid ≠ sid := by simpa using hbne
    exact ⟨(hsm b hbm).1, (hsm b hbm).2 hbne2⟩

theorem sched_delete_spec {st : SchedState} {sid : Nat} {sch : Sched}
    (hwf : WF st) (hg : getSched st sid = some sch) :
    (iot_schedule_delete st sid).2 = iot_schedule_free_events sch ∧
    WF (iot_schedule_delete st sid).1 := by
  by_cases hs : sch.scheduled = true
  · obtain ⟨hrm, hwfx⟩ := queue_remove_detach hwf hg hs
    constructor
    · simp [iot_schedule_delete, hg, hs]
    · have h2 := drop_sched_wf hwfx
      simp only [iot_schedule_delete, hg, hs, if_true]
      rw [hrm]
      exact h2
  · have hs2 : sch.scheduled = false := by
      cases hb : sch.scheduled
      · rfl
      · exact absurd hb hs
    obtain ⟨hrm, hwfx⟩ := idle_remove_detach hwf hg hs2
    constructor
    · simp [iot_schedule_delete, hg, hs2]
    · have h2 := drop_sched_wf hwfx
      simp only [iot_schedule_delete, hg, hs2, Bool.false_eq_true, if_false]
      rw [hrm]
      exact h2

theorem setSched_wf_preserve {st : SchedState} {sid : Nat} {cur cur' : Sched}
    (hwf : WF st) (hg : getSched st sid = some cur)
    (hsid : cur'.sid = cur.sid) (hst : cur'.start = cur.start)
    (hsch : cur'.scheduled = cur.scheduled) :
    WF (setSched st cur') ∧ getSched (setSched st cur') sid = some cur' ∧
    (∀ j, j ≠ sid → getSched (setSched st cur') j = getSched st j) := by
  obtain ⟨hmem, hsid0⟩ := getSched_mem hg
  obtain ⟨hnd, hqk, hik, hqe, hie, hsm⟩ := hwf
  have hsid1 : cur'.sid = sid := by rw [hsid, hsid0]
  refine ⟨?_, getSched_setSched_self hg hsid1, ?_⟩
  · refine ⟨?_, hqk, hik, ?_, ?_, ?_⟩
    · show (sidsOf (setSchedList st.scheds cur')).Nodup
      rw [sidsOf_setSchedList]
      exact hnd
    · intro p hp
      obtain ⟨sch2, hm2, hsid2, hst2, hsch2⟩ := hqe p hp
      by_cases hc : sch2.sid = sid
      · have hg2 : getSched st sid = some sch2 := getSched_of_mem hnd hm2 hc
        rw [hg] at hg2
        have he : cur = sch2 := by simpa using hg2
        refine ⟨cur', ?_, by omega, by rw [hst, he]; exact hst2, ?_⟩
        · exact self_mem_setSchedList hm2 (by rw [hsid1, hc])
        · rw [hsch, he]
          exact hsch2
      · refine ⟨sch2, ?_, hsid2, hst2, hsch2⟩
        exact mem_setSchedList_of_ne hm2 (by rw [hsid1]; exact hc)
    · intro p hp
      obtain ⟨hkk, sch2, hm2, hsid2, hsch2⟩ := hie p hp
      by_cases hc : sch2.sid = sid
      · have hg2 : getSched st sid = some sch2 := getSched_of_mem hnd hm2 hc
        rw [hg] at hg2
        have he : cur = sch2 := by simpa using hg2
        refine ⟨hkk, cur', ?_, by omega, ?_⟩
        · exact self_mem_setSchedList hm2 (by rw [hsid1, hc])
        · rw [hsch, he]
          exact hsch2
      · refine ⟨hkk, sch2, ?_, hsid2, hsch2⟩
        exact mem_setSchedList_of_ne hm2 (by rw [hsid1]; exact hc)
    · intro b hb
      rcases mem_setSchedList.mp hb with ⟨b0, hb0, hbeq⟩
      by_cases hc : b0.sid = cur'.sid
      · rw [if_pos hc] at hbeq
        subst hbeq
        have hg2 : getSched st sid = some b0 := getSched_of_mem hnd hb0 (by omega)
        rw [hg] at hg2
        have he : cur = b0 := by simpa using hg2
        have h1 := hsm b0 hb0
        refine ⟨by rw [hst, he]; exact h1.1, ?_, ?_⟩
        · rw [hsch, he, hsid, he]
          exact h1.2.1
        · rw [hsch, he, hsid, he]
          exact h1.2.2
      · rw [if_neg hc] at hbeq
        subst hbeq
        exact hsm b0 hb0
  · intro j hj
    exact getSched_setSched_ne (by rw [hsid1]; exact hj)

/-- The event list of one due dispatch, as produced by the dispatcher body. -/
def dispatchEvents (cid : Nat) (cur : Sched) (poolOk : Bool) : List Event :=
  (if cur.hasRunCb then [Event.runcb cid] else []) ++
  (if cur.hasPool then
     if poolOk then [Event.invoke cid]
     else
       (if cur.hasAbortCb then [Event.abortcb cid] else []) ++
       [Event.drop cid] ++
       (if cur.dropped == 0 then [Event.logwarn cid] else [])
   else [Event.invoke cid])

theorem dispatch_empty {st : SchedState} {i : DisIn} (h : queueNext st.queue = none) :
    dispatchOnce st i = some ({ st with schdTime := wakeOf st i.now3 }, []) := by
  simp [dispatchOnce, h]

theorem dispatch_not_due {st : SchedState} {i : DisIn} {cid : Nat} {cur : Sched}
    (hqn : queueNext st.queue = some cid) (hg : getSched st cid = some cur)
    (hnd : ¬ cur.start < i.now1 % u64) :
    dispatchOnce st i = some ({ st with schdTime := wakeOf st i.now3 }, []) := by
  simp [dispatchOnce, hqn, hg, hnd]

theorem queueNext_entry {st : SchedState} {cid : Nat}
    (hwf : WF st) (hqn : queueNext st.queue = some cid) :
    ∃ cur, getSched st cid = some cur ∧ cur.scheduled = true ∧
      (cur.start, cid) ∈ st.queue ∧ minKey? st.queue = some cur.start := by
  obtain ⟨hnd, hqk, hik, hqe, hie, hsm⟩ := hwf
  unfold queueNext at hqn
  cases hmk : minKey? st.queue with
  | none => rw [hmk] at hqn; exact absurd hqn (by simp)
  | some k =>
    rw [hmk] at hqn
    have hmem := mapGet_mem hqn
    obtain ⟨sch2, hm2, hsid2, hst2, hsch2⟩ := hqe (k, cid) hmem
    have hg2 : getSched st cid = some sch2 := getSched_of_mem hnd hm2 hsid2
    refine ⟨sch2, hg2, hsch2, ?_, ?_⟩
    · rw [hst2]
      exact hmem
    · rw [hst2]

theorem retire_spec {st : SchedState} {cid : Nat} {cur : Sched} (cur2 : Sched)
    (hwf : WF st) (hg : getSched st cid = some cur)
    (hsid : cur2.sid = cur.sid) (hst : cur2.start = cur.start)
    (hsch2 : cur2.scheduled = cur.scheduled) (hcs : cur.scheduled = true) :
    iot_schedule_idle_add (iot_schedule_queue_remove (setSched st cur2) cid) cid =
      { st with
          scheds := setSchedList st.scheds { cur2 with scheduled := false },
          queue := mapRemove st.queue cur.start,
          idle := (cid, cid) :: st.idle } ∧
    WF { st with
          scheds := setSchedList st.scheds { cur2 with scheduled := false },
          queue := mapRemove st.queue cur.start,
          idle := (cid, cid) :: st.idle } ∧
    getSched { st with
          scheds := setSchedList st.scheds { cur2 with scheduled := false },
          queue := mapRemove st.queue cur.start,
          idle := (cid, cid) :: st.idle } cid = some { cur2 with scheduled := false } ∧
    (∀ j, j ≠ cid → getSched { st with
          scheds := setSchedList st.scheds { cur2 with scheduled := false },
          queue := mapRemove st.queue cur.start,
          idle := (cid, cid) :: st.idle } j = getSched st j) := by
  obtain ⟨hwfm, hgm, hgmne⟩ := setSched_wf_preserve hwf hg hsid hst hsch2
  have hcs2 : cur2.scheduled = true := by rw [hsch2]; exact hcs
  obtain ⟨hrm, hwfx⟩ := queue_remove_detach hwfm hgm hcs2
  have hg1 : getSched
      { setSched st cur2 with queue := mapRemove (setSched st cur2).queue cur2.start }
      cid = some cur2 := hgm
  obtain ⟨hia, hwfF⟩ := idle_add_wf hwfx hg1
  have hsidc : cur.sid = cid := (getSched_mem hg).2
  have htw : setSchedList (setSchedList st.scheds cur2) { cur2 with scheduled := false } =
      setSchedList st.scheds { cur2 with scheduled := false } := setSchedList_twice rfl
  have hres : iot_schedule_idle_add (iot_schedule_queue_remove (setSched st cur2) cid) cid =
      { st with
          scheds := setSchedList st.scheds { cur2 with scheduled := false },
          queue := mapRemove st.queue cur.start,
          idle := (cid, cid) :: st.idle } := by
    rw [show iot_schedule_queue_remove (setSched st cur2) cid =
        { setSched st cur2 with queue := mapRemove (setSched st cur2).queue cur2.start }
      from hrm]
    rw [hia]
    show ({ st with
        scheds := setSchedList (setSchedList st.scheds cur2) { cur2 with scheduled := false },
        queue := mapRemove st.queue cur2.start,
        idle := (cid, cid) :: st.idle } : SchedState) = _
    rw [htw, hst]
  refine ⟨hres, ?_, ?_, ?_⟩
  · have hWF2 : WF (iot_schedule_idle_add
        (iot_schedule_queue_remove (setSched st cur2) cid) cid) := by
      rw [hrm, hia]
      exact hwfF
    rw [hres] at hWF2
    exact hWF2
  · show (setSchedList st.scheds { cur2 with scheduled := false }).find?
      (fun s => s.sid == cid) = _
    have := getSched_setSched_self hg (show ({ cur2 with scheduled := false } : Sched).sid = cid
      from by rw [show ({ cur2 with scheduled := false } : Sched).sid = cur2.sid from rfl,
        hsid, hsidc])
    exact this
  · intro j hj
    show (setSchedList st.scheds { cur2 with scheduled := false }).find?
      (fun s => s.sid == j) = _
    exact find?_setSchedList_ne (by
      rw [show ({ cur2 with scheduled := false } : Sched).sid = cur2.sid from rfl, hsid, hsidc]
      exact hj)

theorem requeue_spec {st : SchedState} {cid next : Nat} {cur : Sched} (cur2 : Sched)
    {res : SchedState × Bool}
    (hwf : WF st) (hg : getSched st cid = some cur)
    (hsid : cur2.sid = cur.sid) (hst : cur2.start = cur.start)
    (hsch2 : cur2.scheduled = cur.scheduled) (hcs : cur.scheduled = true)
    (hnext : next < u64)
    (h : iot_schedule_queue_update (setSched st cur2) cid next = some res) :
    ∃ r, findFreeStart (mapRemove st.queue cur.start) next u64 = some r ∧
      res.1.queue = (r, cid) :: mapRemove st.queue cur.start ∧
      res.1.idle = st.idle ∧
      res.1.compState = st.compState ∧ res.1.refs = st.refs ∧
      res.1.schdTime = st.schdTime ∧ res.1.nextId = st.nextId ∧
      getSched res.1 cid = some { cur2 with start := r, scheduled := true } ∧
      (∀ j, j ≠ cid → getSched res.1 j = getSched st j) ∧
      WF res.1 := by
  obtain ⟨hwfm, hgm, hgmne⟩ := setSched_wf_preserve hwf hg hsid hst hsch2
  have hcs2 : cur2.scheduled = true := by rw [hsch2]; exact hcs
  have h2 : iot_schedule_queue_update (setSched st cur2) cid next = some (res.1, res.2) := by
    rw [h]
  obtain ⟨r, hf, hfree, hrlt, hq, hi, hcss, hrf, hsch, hni2, hscheds, hget, hgetne, hfr, hwf2⟩ :=
    queue_update_wf hwfm hgm hcs2 hnext h2
  have hstq : (setSched st cur2).queue = st.queue := rfl
  rw [hstq, hst] at hf hq
  refine ⟨r, hf, hq, hi, hcss, hrf, hsch, hni2, hget, ?_, hwf2⟩
  intro j hj
  rw [hgetne j hj]
  exact hgmne j hj

theorem setSched_twice {st : SchedState} {a b : Sched} (h : a.sid = b.sid) :
    setSched (setSched st a) b = setSched st b := by
  show ({ st with scheds := setSchedList (setSchedList st.scheds a) b } : SchedState) = _
  rw [setSchedList_twice h]
  rfl

theorem dispatch_due_spec {st : SchedState} {i : DisIn} {st' : SchedState}
    {evs : List Event} {cid : Nat} {cur : Sched}
    (hwf : WF st) (hqn : queueNext st.queue = some cid)
    (hg : getSched st cid = some cur) (hdue : cur.start < i.now1 % u64)
    (h : dispatchOnce st i = some (st', evs)) :
    evs = dispatchEvents cid cur i.poolOk ∧
    WF st' ∧
    (∀ j, j ≠ cid → getSched st' j = getSched st j) ∧
    ∃ cur2, getSched st' cid = some cur2 ∧
      cur2.sid = cur.sid ∧ cur2.period = cur.period ∧
      cur2.hasPool = cur.hasPool ∧ cur2.hasRunCb = cur.hasRunCb ∧
      cur2.hasAbortCb = cur.hasAbortCb ∧ cur2.hasFreeFn = cur.hasFreeFn ∧
      cur2.dropped = cur.dropped + (if cur.hasPool && !i.poolOk then 1 else 0) ∧
      ((cur.rpt = 1 ∧ cur2.rpt = 0 ∧ cur2.scheduled = false ∧
         st'.queue = mapRemove st.queue cur.start ∧ st'.idle = (cid, cid) :: st.idle) ∨
       (cur.rpt ≠ 1 ∧ cur2.rpt = cur.rpt - 1 ∧ cur2.scheduled = true ∧
         st'.idle = st.idle ∧
         findFreeStart (mapRemove st.queue cur.start)
           ((cur.period + i.now2 % u64) % u64) u64 = some cur2.start ∧
         st'.queue = (cur2.start, cid) :: mapRemove st.queue cur.start)) := by
  obtain ⟨cur0, hg0, hcs0, hmem0, hmk0⟩ := queueNext_entry hwf hqn
  rw [hg] at hg0
  have hcur0 : cur = cur0 := by simpa using hg0
  have hcs : cur.scheduled = true := by rw [hcur0]; exact hcs0
  simp only [dispatchOnce, hqn, hg] at h
  rw [if_pos hdue] at h
  obtain ⟨cur1, hcur1, h1sid, h1start, h1per, h1rpt, h1sch, h1drop, h1pool, h1run,
      h1abort, h1free⟩ :
      ∃ cur1 : Sched,
        (if (cur.hasPool && !i.poolOk) = true then
          { cur with dropped := cur.dropped + 1 } else cur) = cur1 ∧
        cur1.sid = cur.sid ∧ cur1.start = cur.start ∧ cur1.period = cur.period ∧
        cur1.rpt = cur.rpt ∧ cur1.scheduled = cur.scheduled ∧
        cur1.dropped = cur.dropped + (if cur.hasPool && !i.poolOk then 1 else 0) ∧
        cur1.hasPool = cur.hasPool ∧ cur1.hasRunCb = cur.hasRunCb ∧
        cur1.hasAbortCb = cur.hasAbortCb ∧ cur1.hasFreeFn = cur.hasFreeFn := by
    refine ⟨_, rfl, ?_, ?_, ?_, ?_, ?_, ?_, ?_, ?_, ?_, ?_⟩ <;> split <;> simp
  rw [hcur1] at h
  have hnext : (cur1.period + i.now2 % u64) % u64 < u64 := Nat.mod_lt _ (by decide)
  cases hr : cur.rpt with
  | zero =>
    rw [if_neg (by omega : ¬ cur1.rpt > 0)] at h
    cases hqu : iot_schedule_queue_update (setSched st cur1) cid
        ((cur1.period + i.now2 % u64) % u64) with
    | none =>
      rw [hqu] at h
      exact absurd h (by simp)
    | some res =>
      rw [hqu] at h
      simp only [Option.map_some', Option.some.injEq, Prod.mk.injEq] at h
      obtain ⟨hst', hevs⟩ := h
      subst hst'
      subst hevs
      obtain ⟨r, hf, hq, hi, hcss, hrf, hsch, hni2, hget, hne, hWF⟩ :=
        requeue_spec cur1 hwf hg h1sid h1start h1sch hcs hnext hqu
      refine ⟨rfl, hWF, hne, { cur1 with start := r, scheduled := true }, hget,
        h1sid, h1per, h1pool, h1run, h1abort, h1free, h1drop, Or.inr ?_⟩
      rw [h1per] at hf
      exact ⟨by omega, by simp only [h1rpt, hr], rfl, hi, hf, hq⟩
  | succ n =>
    rw [if_pos (by omega : cur1.rpt > 0)] at h
    by_cases hn : n = 0
    · have h1 : ((cur1.rpt - 1 == 0) = true) := by
        rw [h1rpt, hr, hn]
        decide
      rw [if_pos h1] at h
      have ht : setSched (setSched st cur1) { cur1 with rpt := cur1.rpt - 1 } =
          setSched st { cur1 with rpt := cur1.rpt - 1 } := setSched_twice rfl
      rw [ht] at h
      obtain ⟨hres, hWF, hgetF, hneF⟩ :=
        retire_spec ({ cur1 with rpt := cur1.rpt - 1 }) hwf hg h1sid h1start h1sch hcs
      rw [hres] at h
      simp only [Option.some.injEq, Prod.mk.injEq] at h
      obtain ⟨hst', hevs⟩ := h
      subst hst'
      subst hevs
      refine ⟨rfl, hWF, hneF, { cur1 with rpt := cur1.rpt - 1, scheduled := false },
        hgetF, h1sid, h1per, h1pool, h1run, h1abort, h1free, h1drop, Or.inl ?_⟩
      exact ⟨by omega, by simp only [h1rpt, hr]; omega, rfl, rfl, rfl⟩
    · have h1 : ¬ ((cur1.rpt - 1 == 0) = true) := by
        rw [h1rpt, hr]
        simp [hn]
      rw [if_neg h1] at h
      have ht : setSched (setSched st cur1) { cur1 with rpt := cur1.rpt - 1 } =
          setSched st { cur1 with rpt := cur1.rpt - 1 } := setSched_twice rfl
      rw [ht] at h
      cases hqu : iot_schedule_queue_update (setSched st { cur1 with rpt := cur1.rpt - 1 })
          cid ((cur1.period + i.now2 % u64) % u64) with
      | none =>
        rw [hqu] at h
        exact absurd h (by simp)
      | some res =>
        rw [hqu] at h
        simp only [Option.map_some', Option.some.injEq, Prod.mk.injEq] at h
        obtain ⟨hst', hevs⟩ := h
        subst hst'
        subst hevs
        obtain ⟨r, hf, hq, hi, hcss, hrf, hsch, hni2, hget, hne, hWF⟩ :=
          requeue_spec ({ cur1 with rpt := cur1.rpt - 1 }) hwf hg h1sid h1start h1sch
            hcs hnext hqu
        refine ⟨rfl, hWF, hne,
          { cur1 with rpt := cur1.rpt - 1, start := r, scheduled := true }, hget,
          h1sid, h1per, h1pool, h1run, h1abort, h1free, h1drop, Or.inr ?_⟩
        rw [h1per] at hf
        exact ⟨by omega, by simp only [h1rpt, hr], rfl, hi, hf, hq⟩

theorem attempts_append (a b : List Event) (sid : Nat) :
    attempts (a ++ b) sid = attempts a sid + attempts b sid := by
  unfold attempts
  exact List.countP_append _ _ _

theorem attempts_dispatchEvents_self (cid : Nat) (cur : Sched) (pk : Bool) :
    attempts (dispatchEvents cid cur pk) cid = 1 := by
  unfold dispatchEvents attempts
  cases cur.hasRunCb <;> cases cur.hasPool <;> cases pk <;>
    cases hd : (cur.dropped == 0) <;> cases cur.hasAbortCb <;>
      simp [List.countP_append, List.countP_cons]

theorem attempts_dispatchEvents_other {cid s : Nat} (hne : s ≠ cid)
    (cur : Sched) (pk : Bool) :
    attempts (dispatchEvents cid cur pk) s = 0 := by
  unfold dispatchEvents attempts
  have hne2 : ¬ cid = s := fun he => hne he.symm
  cases cur.hasRunCb <;> cases cur.hasPool <;> cases pk <;>
    cases hd : (cur.dropped == 0) <;> cases cur.hasAbortCb <;>
      simp [List.countP_append, List.countP_cons, hne, hne2]

/-- The bookkeeping invariant for one tracked schedule along a dispatcher
run: while in the due-time map, past attempts plus remaining repetitions
equal the initial repeat count; once idle, past attempts equal it. -/
def trackInv (st : SchedState) (s R n : Nat) : Prop :=
  ∃ schS, getSched st s = some schS ∧
    ((schS.scheduled = true ∧ n + schS.rpt = R ∧ 1 ≤ schS.rpt) ∨
     (schS.scheduled = false ∧ n = R))

theorem dispatch_track_step {st st' : SchedState} {i : DisIn} {evs : List Event}
    {s R n : Nat}
    (hwf : WF st) (h : dispatchOnce st i = some (st', evs))
    (hP : trackInv st s R n) :
    WF st' ∧ trackInv st' s R (n + attempts evs s) := by
  obtain ⟨schS, hgs, hPP⟩ := hP
  cases hqn : queueNext st.queue with
  | none =>
    rw [dispatch_empty hqn] at h
    simp only [Option.some.injEq, Prod.mk.injEq] at h
    obtain ⟨hst', hevs⟩ := h
    subst hst'
    subst hevs
    exact ⟨hwf, schS, hgs, by simpa [attempts] using hPP⟩
  | some cid =>
    obtain ⟨cur, hg, hcs, hmem, hmk⟩ := queueNext_entry hwf hqn
    by_cases hdue : cur.start < i.now1 % u64
    · obtain ⟨hevs, hWF, hne, cur2, hget2, hsid2, hper2, hpool2, hrun2, habort2,
        hfree2, hdrop2, hbr⟩ := dispatch_due_spec hwf hqn hg hdue h
      by_cases hcid : s = cid
      · subst hcid
        rw [hg] at hgs
        have hsc : schS = cur := by simpa using hgs.symm
        subst hsc
        rcases hPP with ⟨hsch1, hsum, hge⟩ | ⟨hsch0, _⟩
        · have hat : attempts evs s = 1 := by
            rw [hevs]
            exact attempts_dispatchEvents_self s schS i.poolOk
          rcases hbr with ⟨hr1, hrpt0, hsch0', _, _⟩ | ⟨hne1, hrpt', hsch', _, _, _⟩
          · refine ⟨hWF, cur2, hget2, Or.inr ⟨hsch0', by omega⟩⟩
          · refine ⟨hWF, cur2, hget2, Or.inl ⟨hsch', by omega, by omega⟩⟩
        · rw [hsch0] at hcs
          exact absurd hcs (by simp)
      · have hat : attempts evs s = 0 := by
          rw [hevs]
          exact attempts_dispatchEvents_other hcid cur i.poolOk
        rw [hat]
        exact ⟨hWF, schS, by rw [hne s hcid]; exact hgs, hPP⟩
    · rw [dispatch_not_due hqn hg hdue] at h
      simp only [Option.some.injEq, Prod.mk.injEq] at h
      obtain ⟨hst', hevs⟩ := h
      subst hst'
      subst hevs
      exact ⟨hwf, schS, hgs, by simpa [attempts] using hPP⟩

theorem dispatch_track_run {ins : List DisIn} :
    ∀ {st stF : SchedState} {evs : List Event} {s R n : Nat},
    WF st → runDispatch st ins = some (stF, evs) → trackInv st s R n →
    WF stF ∧ trackInv stF s R (n + attempts evs s) := by
  induction ins with
  | nil =>
    intro st stF evs s R n hwf hrun hP
    simp only [runDispatch, Option.some.injEq, Prod.mk.injEq] at hrun
    obtain ⟨hst, hevs⟩ := hrun
    subst hst
    subst hevs
    exact ⟨hwf, by simpa [attempts] using hP⟩
  | cons i rest ih =>
    intro st stF evs s R n hwf hrun hP
    simp only [runDispatch] at hrun
    cases hd : dispatchOnce st i with
    | none => rw [hd] at hrun; exact absurd hrun (by simp)
    | some r =>
      rw [hd] at hrun
      have hrunb : (match runDispatch r.1 rest with
          | none => none
          | some r2 => some (r2.1, r.2 ++ r2.2)) = some (stF, evs) := hrun
      cases hrr : runDispatch r.1 rest with
      | none => rw [hrr] at hrunb; exact absurd hrunb (by simp)
      | some r2 =>
        rw [hrr] at hrunb
        simp only [Option.some.injEq, Prod.mk.injEq] at hrunb
        obtain ⟨hst, hevs⟩ := hrunb
        subst hst
        subst hevs
        have hd2 : dispatchOnce st i = some (r.1, r.2) := by rw [hd]
        obtain ⟨hwf1, hP1⟩ := dispatch_track_step hwf hd2 hP
        have hrr2 : runDispatch r.1 rest = some (r2.1, r2.2) := by rw [hrr]
        obtain ⟨hwf2, hP2⟩ := ih hwf1 hrr2 hP1
        refine ⟨hwf2, ?_⟩
        rw [attempts_append] at *
        obtain ⟨schS, hgs, hPP⟩ := hP2
        refine ⟨schS, hgs, ?_⟩
        rcases hPP with ⟨h1, h2, h3⟩ | ⟨h1, h2⟩
        · exact Or.inl ⟨h1, by omega, h3⟩
        · exact Or.inr ⟨h1, by omega⟩

instance (st : SchedState) (sid : Nat) : Decidable (WFexcept st sid) := by
  unfold WFexcept
  infer_instance

/-- The collision loop instrumented with the number of +1 increments it
performs before finding a free key. -/
def findFreeStartCount (m : KMap) : Nat → Nat → Option (Nat × Nat)
  | _, 0 => none
  | s, fuel + 1 =>
    if containsKey m s then
      match findFreeStartCount m ((s + 1) % u64) fuel with
      | none => none
      | some rc => some (rc.1, rc.2 + 1)
    else some (s, 0)

theorem findFreeStartCount_eq_some {m : KMap} {r : Nat} {s : Nat} (fuel : Nat)
    (hs : s ≤ r) (hr : r < u64) (hfuel : r - s < fuel)
    (hocc : ∀ t, s ≤ t → t < r → containsKey m t = true)
    (hfree : containsKey m r = false) :
    findFreeStartCount m s fuel = some (r, r - s) := by
  induction fuel generalizing s with
  | zero => omega
  | succ fuel ih =>
    by_cases hsr : s = r
    · subst hsr
      simp [findFreeStartCount, hfree]
    · have h1 : containsKey m s = true := hocc s le_rfl (by omega)
      have h2 : (s + 1) % u64 = s + 1 := Nat.mod_eq_of_lt (by omega)
      simp only [findFreeStartCount, h1, if_true, h2]
      rw [ih (by omega) (by omega) (fun t ht1 ht2 => hocc t (by omega) ht2)]
      have : r - s = (r - (s + 1)) + 1 := by omega
      rw [this]

/-- C10: for a due-time map with pairwise-distinct 64-bit keys and a start
below 2^64 such that not every key from the start up to the 64-bit maximum
is occupied, the collision loop of queue_add terminates; it returns the
first free key at or above the start, and the number of +1 increments it
performs equals the number of consecutively occupied keys at and above the
start, which is bounded by the size of the map. -/
theorem C10_collision_loop_bound {m : KMap} {s : Nat}
    (hnd : (keysOf m).Nodup) (hs : s < u64)
    (hkeys : ∀ k ∈ keysOf m, k < u64)
    (hfree : ∃ t, s ≤ t ∧ t < u64 ∧ containsKey m t = false) :
    ∃ r, findFreeStart m s u64 = some r ∧
      findFreeStartCount m s u64 = some (r, r - s) ∧
      containsKey m r = false ∧
      (∀ t, s ≤ t → t < r → containsKey m t = true) ∧
      r - s ≤ m.length := by
  obtain ⟨r, hf, hsr, hru, hfree2, hocc⟩ := findFreeStart_spec hfree
  exact ⟨r, hf, findFreeStartCount_eq_some u64 hsr hru (by omega) hocc hfree2,
    hfree2, hocc, findFreeStart_len_bound hocc⟩

/-- Witness for C10 at a concrete map and start. -/
theorem C10_collision_loop_bound_witness :
    ∃ r, findFreeStart [(5, 1), (6, 2)] 5 u64 = some r ∧
      findFreeStartCount [(5, 1), (6, 2)] 5 u64 = some (r, r - 5) ∧
      containsKey [(5, 1), (6, 2)] r = false ∧
      (∀ t, 5 ≤ t → t < r → containsKey [(5, 1), (6, 2)] t = true) ∧
      r - 5 ≤ [(5, 1), (6, 2)].length :=
  C10_collision_loop_bound (by decide) (by decide) (by decide)
    ⟨7, by decide, by decide, by decide⟩

theorem nsecs_step_gt {last : Nat} (now : Nat) (h : last + 1 < u64) :
    last < (iot_time_nsecs_step last now).1 := by
  show last < (if now % u64 ≤ last then (last + 1) % u64 else now % u64)
  by_cases hc : now % u64 ≤ last
  · rw [if_pos hc, Nat.mod_eq_of_lt h]
    omega
  · rw [if_neg hc]
    omega

theorem nsecs_run_head {rest : List Nat} {last b : Nat}
    (h : (iot_time_nsecs_run last rest).1.head? = some b) (hlt : last + 1 < u64) :
    last < b := by
  cases rest with
  | nil => exact absurd h (by simp [iot_time_nsecs_run])
  | cons n rest' =>
    have hcons : (iot_time_nsecs_run last (n :: rest')).1 =
        (iot_time_nsecs_step last n).1 ::
          (iot_time_nsecs_run (iot_time_nsecs_step last n).2 rest').1 := rfl
    rw [hcons] at h
    simp only [List.head?_cons, Option.some.injEq] at h
    rw [← h]
    exact nsecs_step_gt n hlt

theorem nsecs_run_chain {nows : List Nat} :
    ∀ {last0 : Nat},
    (∀ o ∈ (iot_time_nsecs_run last0 nows).1, o + 1 < u64) →
    (iot_time_nsecs_run last0 nows).1.Chain' (· < ·) := by
  induction nows with
  | nil =>
    intro last0 _
    simp [iot_time_nsecs_run]
  | cons n rest ih =>
    intro last0 hbound
    have hcons : (iot_time_nsecs_run last0 (n :: rest)).1 =
        (iot_time_nsecs_step last0 n).1 ::
          (iot_time_nsecs_run (iot_time_nsecs_step last0 n).1 rest).1 := rfl
    rw [hcons] at hbound ⊢
    refine List.chain'_cons'.mpr ⟨?_, ih ?_⟩
    · intro b hb
      refine nsecs_run_head (Option.mem_def.mp hb) ?_
      exact hbound _ (List.mem_cons_self _ _)
    · intro o ho
      exact hbound o (List.mem_cons.mpr (Or.inr ho))

/-- C7 counterexample: with the stored value at 2^64 - 1 (one call after the
wall clock reports 2^64 - 1 nanoseconds), the uint64 increment wraps to 0,
so the returned sequence is not strictly increasing and the result is not
the mathematical max of the wall clock and the successor of the stored
value.  This refutes the claim as stated for every sequence of calls. -/
theorem C7_monotonic_clock_counterexample :
    (iot_time_nsecs_run 0 [u64 - 1, 5]).1 = [u64 - 1, 0] ∧
    ¬ ((iot_time_nsecs_run 0 [u64 - 1, 5]).1.Chain' (· < ·)) ∧
    (iot_time_nsecs_step (u64 - 1) 5).1 ≠ Nat.max (5 % u64) ((u64 - 1) + 1) := by
  refine ⟨by decide, ?_, by decide⟩
  rw [show (iot_time_nsecs_run 0 [u64 - 1, 5]).1 = [u64 - 1, 0] from by decide]
  intro hch
  rw [List.chain'_cons] at hch
  omega

/-- C7 (amended): provided no 64-bit overflow occurs, that is the stored
value stays below 2^64 - 1, each call to iot_time_nsecs returns the
maximum of the wall-clock reading and the stored value plus one, stores
that result, and returns a value strictly greater than the previous stored
value; hence along any sequence of calls whose results stay below
2^64 - 1, the returned values are strictly increasing. -/
theorem C7_monotonic_clock_amended :
    (∀ last now, now < u64 → last + 1 < u64 →
       (iot_time_nsecs_step last now).1 = Nat.max now (last + 1) ∧
       last < (iot_time_nsecs_step last now).1 ∧
       (iot_time_nsecs_step last now).2 = (iot_time_nsecs_step last now).1) ∧
    (∀ nows last0, (∀ o ∈ (iot_time_nsecs_run last0 nows).1, o + 1 < u64) →
       (iot_time_nsecs_run last0 nows).1.Chain' (· < ·)) := by
  constructor
  · intro last now hnow hlast
    refine ⟨?_, nsecs_step_gt now hlast, rfl⟩
    show (if now % u64 ≤ last then (last + 1) % u64 else now % u64) = Nat.max now (last + 1)
    rw [Nat.mod_eq_of_lt hnow, Nat.mod_eq_of_lt hlast]
    by_cases hc : now ≤ last
    · rw [if_pos hc]
      exact (Nat.max_eq_right (show now ≤ last + 1 by omega)).symm
    · rw [if_neg hc]
      exact (Nat.max_eq_left (show last + 1 ≤ now by omega)).symm
  · intro nows last0 hb
    exact nsecs_run_chain hb

/-- Witness for the amended C7 at concrete calls. -/
theorem C7_monotonic_clock_amended_witness :
    ((iot_time_nsecs_step 0 10).1 = Nat.max 10 1 ∧
     0 < (iot_time_nsecs_step 0 10).1 ∧
     (iot_time_nsecs_step 0 10).2 = (iot_time_nsecs_step 0 10).1) ∧
    (iot_time_nsecs_run 0 [10, 3]).1.Chain' (· < ·) :=
  ⟨C7_monotonic_clock_amended.1 0 10 (by decide) (by decide),
   C7_monotonic_clock_amended.2 [10, 3] 0 (by decide)⟩

theorem foldl_addHolder (l : List Nat) : ∀ acc, l.foldl addHolder acc = acc ++ l := by
  induction l with
  | nil => intro acc; simp [List.foldl]
  | cons a rest ih =>
    intro acc
    simp only [List.foldl, addHolder]
    rw [ih]
    simp

/-- C8: for a container whose holders were inserted in the given order,
iot_container_start invokes the start functions in insertion order and
iot_container_stop invokes the stop functions in exactly the reverse
order: the stop sequence is the reverse of the start sequence. -/
theorem C8_container_stop_reverse (l : List Nat) :
    (iot_container_start (l.foldl addHolder [])).map cidOf = l ∧
    (iot_container_stop (l.foldl addHolder [])).map cidOf =
      ((iot_container_start (l.foldl addHolder [])).map cidOf).reverse := by
  rw [foldl_addHolder l []]
  have h1 : (iot_container_start (([] : List Nat) ++ l)).map cidOf = l := by
    show (l.map CEvent.started).map cidOf = l
    rw [List.map_map]
    have h2 : ∀ a ∈ l, (cidOf ∘ CEvent.started) a = id a := fun a _ => rfl
    rw [List.map_congr_left h2, List.map_id]
  refine ⟨h1, ?_⟩
  rw [h1]
  show (l.reverse.map CEvent.stopped).map cidOf = l.reverse
  rw [List.map_map]
  have h3 : ∀ a ∈ l.reverse, (cidOf ∘ CEvent.stopped) a = id a := fun a _ => rfl
  rw [List.map_congr_left h3, List.map_id]

theorem WF_queue_value_unique {st : SchedState} (hwf : WF st) {p q : Nat × Nat}
    (hp : p ∈ st.queue) (hq : q ∈ st.queue) (he : p.2 = q.2) : p = q := by
  obtain ⟨hnd, hqk, hik, hqe, hie, hsm⟩ := hwf
  obtain ⟨a, ha, hasid, hastart, _⟩ := hqe p hp
  obtain ⟨b, hb, hbsid, hbstart, _⟩ := hqe q hq
  have hga : getSched st p.2 = some a := getSched_of_mem hnd ha hasid
  have hgb : getSched st p.2 = some b := by
    rw [he]
    exact getSched_of_mem hnd hb hbsid
  rw [hga] at hgb
  have hab : a = b := by simpa using hgb
  have hkk : p.1 = q.1 := by rw [← hastart, hab, hbstart]
  exact key_entry_unique hqk hp hq hkk

theorem WF_queueVals_nodup {st : SchedState} (hwf : WF st) :
    (valsOf st.queue).Nodup := by
  have hmnd : st.queue.Nodup := hwf.2.1.of_map
  exact hmnd.map_on (fun x hx y hy hxy => WF_queue_value_unique hwf hx hy hxy)

theorem idle_keys_eq_vals {st : SchedState} (hwf : WF st) :
    keysOf st.idle = valsOf st.idle := by
  unfold keysOf valsOf
  apply List.map_congr_left
  intro p hp
  exact (hwf.2.2.2.2.1 p hp).1

theorem WF_idleVals_nodup {st : SchedState} (hwf : WF st) :
    (valsOf st.idle).Nodup := by
  rw [← idle_keys_eq_vals hwf]
  exact hwf.2.2.1

theorem freeSchedules_counts {l : List Sched} {sid : Nat} {sch : Sched}
    (hg : l.find? (fun s => s.sid == sid) = some sch) (m : KMap) :
    (iot_scheduler_free_schedules l m).count (Event.schedFree sid) =
      (valsOf m).count sid ∧
    (iot_scheduler_free_schedules l m).count (Event.freeFn sid) =
      (if sch.hasFreeFn then (valsOf m).count sid else 0) := by
  have hsid : sch.sid = sid := by simpa using List.find?_some hg
  induction m with
  | nil =>
    constructor
    · rfl
    · cases hf : sch.hasFreeFn <;> simp [iot_scheduler_free_schedules, valsOf]
  | cons p rest ih =>
    have hcons : iot_scheduler_free_schedules l (p :: rest) =
        (match l.find? (fun s => s.sid == p.2) with
         | none => []
         | some b => iot_schedule_free_events b) ++
          iot_scheduler_free_schedules l rest := rfl
    by_cases hv : p.2 = sid
    · have hcount : (valsOf (p :: rest)).count sid = (valsOf rest).count sid + 1 := by
        show ((p.2 :: valsOf rest).count sid) = _
        simp [List.count_cons, hv]
      have hfind : l.find? (fun s => s.sid == p.2) = some sch := by rw [hv]; exact hg
      have hcons2 : iot_scheduler_free_schedules l (p :: rest) =
          iot_schedule_free_events sch ++ iot_scheduler_free_schedules l rest := by
        rw [hcons, hfind]
      rw [hcons2, List.count_append, List.count_append, hcount]
      constructor
      · rw [ih.1]
        have h1 : (iot_schedule_free_events sch).count (Event.schedFree sid) = 1 := by
          unfold iot_schedule_free_events
          cases hf : sch.hasFreeFn <;> simp [List.count_append, List.count_cons, hsid]
        rw [h1]
        omega
      · rw [ih.2]
        have h2 : (iot_schedule_free_events sch).count (Event.freeFn sid) =
            (if sch.hasFreeFn then 1 else 0) := by
          unfold iot_schedule_free_events
          cases hf : sch.hasFreeFn <;> simp [List.count_append, List.count_cons, hsid]
        rw [h2]
        cases hf : sch.hasFreeFn <;> simp [hf] <;> omega
    · have hcount : (valsOf (p :: rest)).count sid = (valsOf rest).count sid := by
        show ((p.2 :: valsOf rest).count sid) = _
        simp [List.count_cons, hv]
      cases hfind : l.find? (fun s => s.sid == p.2) with
      | none =>
        have hcons2 : iot_scheduler_free_schedules l (p :: rest) =
            iot_scheduler_free_schedules l rest := by
          rw [hcons, hfind]
          rfl
        rw [hcons2, hcount]
        exact ih
      | some b =>
        have hbsid : b.sid = p.2 := by simpa using List.find?_some hfind
        have hbne : b.sid ≠ sid := by rw [hbsid]; exact hv
        have hcons2 : iot_scheduler_free_schedules l (p :: rest) =
            iot_schedule_free_events b ++ iot_scheduler_free_schedules l rest := by
          rw [hcons, hfind]
        have hz1 : (iot_schedule_free_events b).count (Event.schedFree sid) = 0 := by
          unfold iot_schedule_free_events
          cases hf : b.hasFreeFn <;> simp [List.count_append, List.count_cons, hbne]
        have hz2 : (iot_schedule_free_events b).count (Event.freeFn sid) = 0 := by
          unfold iot_schedule_free_events
          cases hf : b.hasFreeFn <;> simp [List.count_append, List.count_cons, hbne]
        rw [hcons2, List.count_append, List.count_append, hz1, hz2, hcount]
        simpa using ih

/-- C9: when the scheduler's reference count reaches zero in
iot_scheduler_free, both maps are drained and, for every live schedule,
iot_schedule_free is entered exactly once (none skipped, none freed twice)
and its user free function is invoked exactly once when supplied and never
otherwise. -/
theorem C9_free_exactly_once {st st' : SchedState} {evs : List Event}
    (hwf : WF st) (hone : st.refs = 1)
    (h : iot_scheduler_free st = (st', evs)) :
    (∀ sid sch, getSched st sid = some sch →
      evs.count (Event.schedFree sid) = 1 ∧
      evs.count (Event.freeFn sid) = (if sch.hasFreeFn then 1 else 0)) ∧
    st'.queue = [] ∧ st'.idle = [] := by
  have hred : iot_scheduler_free st =
      ({ st with refs := 0, compState := CompState.deleted,
                 scheds := [], queue := [], idle := [] },
       iot_scheduler_free_schedules st.scheds st.queue ++
       iot_scheduler_free_schedules st.scheds st.idle) := by
    unfold iot_scheduler_free iot_component_dec_ref
    rw [hone]
    rfl
  rw [hred] at h
  have hevs : evs = iot_scheduler_free_schedules st.scheds st.queue ++
      iot_scheduler_free_schedules st.scheds st.idle := by
    have := congrArg Prod.snd h
    simpa using this.symm
  have hst : st' = { st with refs := 0, compState := CompState.deleted, scheds := [], queue := [], idle := [] } := by
    have := congrArg Prod.fst h
    simpa using this.symm
  refine ⟨?_, by rw [hst], by rw [hst]⟩
  intro sid sch hg
  obtain ⟨hc1, hc2⟩ := freeSchedules_counts hg st.queue
  obtain ⟨hd1, hd2⟩ := freeSchedules_counts hg st.idle
  obtain ⟨hmem, hsid⟩ := getSched_mem hg
  have hiff := (hwf.2.2.2.2.2 sch hmem).2
  by_cases hs : sch.scheduled = true
  · have hq1 : (valsOf st.queue).count sid = 1 := by
      refine List.count_eq_one_of_mem (WF_queueVals_nodup hwf) ?_
      rw [← hsid]
      exact hiff.1.mp hs
    have hi0 : (valsOf st.idle).count sid = 0 := by
      refine List.count_eq_zero_of_not_mem ?_
      intro hmem2
      have := hiff.2.mpr (by rw [hsid]; exact hmem2)
      rw [hs] at this
      exact absurd this (by simp)
    rw [hevs, List.count_append, List.count_append, hc1, hd1, hc2, hd2, hq1, hi0]
    constructor
    · rfl
    · cases hf : sch.hasFreeFn <;> simp
  · have hs2 : sch.scheduled = false := by
      cases hb : sch.scheduled
      · rfl
      · exact absurd hb hs
    have hi1 : (valsOf st.idle).count sid = 1 := by
      refine List.count_eq_one_of_mem (WF_idleVals_nodup hwf) ?_
      rw [← hsid]
      exact hiff.2.mp hs2
    have hq0 : (valsOf st.queue).count sid = 0 := by
      refine List.count_eq_zero_of_not_mem ?_
      intro hmem2
      have := hiff.1.mpr (by rw [hsid]; exact hmem2)
      rw [hs2] at this
      exact absurd this (by simp)
    rw [hevs, List.count_append, List.count_append, hc1, hd1, hc2, hd2, hi1, hq0]
    constructor
    · rfl
    · cases hf : sch.hasFreeFn <;> simp

/-- Witness for C9 with one scheduled and one idle schedule. -/
theorem C9_free_exactly_once_witness :
    (∀ sid sch,
      getSched ⟨[⟨0, 5, 7, 1, true, 0, false, false, false, true⟩,
                 ⟨1, 9, 7, 1, false, 0, false, false, false, false⟩],
                [(5, 0)], [(1, 1)], CompState.stopped, 1, 0, 2⟩ sid = some sch →
      ((iot_scheduler_free ⟨[⟨0, 5, 7, 1, true, 0, false, false, false, true⟩,
                 ⟨1, 9, 7, 1, false, 0, false, false, false, false⟩],
                [(5, 0)], [(1, 1)], CompState.stopped, 1, 0, 2⟩).2.count
        (Event.schedFree sid) = 1 ∧
       (iot_scheduler_free ⟨[⟨0, 5, 7, 1, true, 0, false, false, false, true⟩,
                 ⟨1, 9, 7, 1, false, 0, false, false, false, false⟩],
                [(5, 0)], [(1, 1)], CompState.stopped, 1, 0, 2⟩).2.count
        (Event.freeFn sid) = (if sch.hasFreeFn then 1 else 0))) ∧
    (iot_scheduler_free ⟨[⟨0, 5, 7, 1, true, 0, false, false, false, true⟩,
                 ⟨1, 9, 7, 1, false, 0, false, false, false, false⟩],
                [(5, 0)], [(1, 1)], CompState.stopped, 1, 0, 2⟩).1.queue = [] ∧
    (iot_scheduler_free ⟨[⟨0, 5, 7, 1, true, 0, false, false, false, true⟩,
                 ⟨1, 9, 7, 1, false, 0, false, false, false, false⟩],
                [(5, 0)], [(1, 1)], CompState.stopped, 1, 0, 2⟩).1.idle = [] :=
  C9_free_exactly_once (by decide) (by decide) rfl

/-- C1: queue_add bumps the schedule's start past colliding keys one
nanosecond at a time, so it lands on the least free key at or above the
original start; the schedule is inserted under that (fresh) key, its
scheduled flag is set, the call returns true exactly when the schedule now
sits under the minimum key of the due-time map, and the keys of the map
remain pairwise distinct. -/
theorem C1_queue_add_unique_start {st : SchedState} {sid : Nat} {sch : Sched}
    {st' : SchedState} {front : Bool}
    (hwf : WFexcept st sid) (hg : getSched st sid = some sch)
    (hfree : ∃ t, sch.start ≤ t ∧ t < u64 ∧ containsKey st.queue t = false)
    (h : iot_schedule_queue_add st sid = some (st', front)) :
    ∃ r, sch.start ≤ r ∧
      (∀ t, sch.start ≤ t → t < r → containsKey st.queue t = true) ∧
      containsKey st.queue r = false ∧
      mapGet st'.queue r = some sid ∧
      getSched st' sid = some { sch with start := r, scheduled := true } ∧
      (front = true ↔ minKey? st'.queue = some r) ∧
      (keysOf st'.queue).Nodup := by
  obtain ⟨r0, hf0, hle0, hlt0, hfree0, hocc0⟩ := findFreeStart_spec hfree
  obtain ⟨r, hf, hrfree, hrlt, hq, hidle, hcs, hrefs, hsch, hnid, hscheds, hget,
    hgetne, hfr, hwf'⟩ := queue_add_wf hwf hg h
  rw [hf] at hf0
  have hrr : r = r0 := Option.some.inj hf0
  have hle : sch.start ≤ r := by rw [hrr]; exact hle0
  have hocc : ∀ t, sch.start ≤ t → t < r → containsKey st.queue t = true := by
    rw [hrr]; exact hocc0
  have hnq : sid ∉ valsOf st.queue := hwf.2.2.2.2.2.1
  have hmg : mapGet st'.queue r = some sid := by
    rw [hq]
    simp [mapGet, List.find?]
  refine ⟨r, hle, hocc, hrfree, hmg, hget, ?_, hwf'.2.1⟩
  rw [hfr]
  unfold isNext
  constructor
  · intro hb
    have hqn : queueNext st'.queue = some sid := by simpa using hb
    unfold queueNext at hqn
    cases hmk : minKey? st'.queue with
    | none => rw [hmk] at hqn; simp at hqn
    | some k =>
      rw [hmk] at hqn
      have hmem := mapGet_mem hqn
      rw [hq] at hmem
      rcases List.mem_cons.mp hmem with h1 | h1
      · have hk : k = r := congrArg Prod.fst h1
        rw [hk]
      · exact absurd
          (show sid ∈ valsOf st.queue from List.mem_map.mpr ⟨(k, sid), h1, rfl⟩)
          hnq
  · intro hmk
    have hqn : queueNext st'.queue = some sid := by
      unfold queueNext
      rw [hmk]
      exact hmg
    simp [hqn]

/-- Witness for C1: schedule 0 with start 5 is added while the queue
already holds key 5, so it lands under key 6 and is not the front. -/
theorem C1_queue_add_unique_start_witness :
    ∃ r, (5 : Nat) ≤ r ∧
      (∀ t, 5 ≤ t → t < r → containsKey [(5, 1)] t = true) ∧
      containsKey [(5, 1)] r = false ∧
      mapGet [(6, 0), (5, 1)] r = some 0 ∧
      getSched ⟨[⟨0, 6, 10, 2, true, 0, false, false, false, false⟩,
                 ⟨1, 5, 7, 1, true, 0, false, false, false, false⟩],
                [(6, 0), (5, 1)], [], CompState.running, 1, 0, 2⟩ 0 =
        some ⟨0, r, 10, 2, true, 0, false, false, false, false⟩ ∧
      (false = true ↔ minKey? [(6, 0), (5, 1)] = some r) ∧
      (keysOf ((6, 0) :: [(5, 1)])).Nodup :=
  C1_queue_add_unique_start
    (by decide)
    (show getSched ⟨[⟨0, 5, 10, 2, false, 0, false, false, false, false⟩,
                    ⟨1, 5, 7, 1, true, 0, false, false, false, false⟩],
                   [(5, 1)], [], CompState.running, 1, 0, 2⟩ 0 =
      some ⟨0, 5, 10, 2, false, 0, false, false, false, false⟩ from by decide)
    ⟨6, by decide, by decide, by decide⟩
    (show iot_schedule_queue_add
        ⟨[⟨0, 5, 10, 2, false, 0, false, false, false, false⟩,
          ⟨1, 5, 7, 1, true, 0, false, false, false, false⟩],
         [(5, 1)], [], CompState.running, 1, 0, 2⟩ 0 =
      some (⟨[⟨0, 6, 10, 2, true, 0, false, false, false, false⟩,
              ⟨1, 5, 7, 1, true, 0, false, false, false, false⟩],
             [(6, 0), (5, 1)], [], CompState.running, 1, 0, 2⟩, false) from by decide)

/-- C5: iot_schedule_add returns true exactly when the schedule was not
scheduled on entry; in that case it removes the schedule from the idle map,
inserts it into the due-time map through queue_add, and emits the signal
event exactly when the schedule became the front of the map while the
scheduler is running; when the schedule was already scheduled nothing
changes and no event is emitted. -/
theorem C5_schedule_add {st : SchedState} {sid : Nat} {sch : Sched}
    {st' : SchedState} {ret : Bool} {evs : List Event}
    (hwf : WF st) (hg : getSched st sid = some sch)
    (h : iot_schedule_add st sid = some (st', ret, evs)) :
    (ret = true ↔ sch.scheduled = false) ∧
    (sch.scheduled = true → st' = st ∧ evs = []) ∧
    (sch.scheduled = false →
      st'.idle = mapRemove st.idle sid ∧
      ∃ r, findFreeStart st.queue sch.start u64 = some r ∧
        st'.queue = (r, sid) :: st.queue ∧
        getSched st' sid = some { sch with start := r, scheduled := true } ∧
        (Event.signal ∈ evs ↔
          isNext st'.queue sid = true ∧ st.compState = CompState.running) ∧
        WF st') := by
  cases hs : sch.scheduled with
  | true =>
    have heq := sched_add_noop hg hs
    rw [heq] at h
    simp only [Option.some.injEq, Prod.mk.injEq] at h
    obtain ⟨hst, hret, hevs⟩ := h
    refine ⟨?_, fun _ => ⟨hst.symm, hevs.symm⟩, fun hc => Bool.noConfusion hc⟩
    rw [← hret]
    simp
  | false =>
    obtain ⟨hret, r, hf, hfree, hrlt, hq, hi, hcs, hget, hgetne, hevs, hwf2⟩ :=
      sched_add_spec hwf hg hs h
    refine ⟨?_, fun hc => Bool.noConfusion hc, fun _ => ⟨hi, r, hf, hq, hget, ?_, hwf2⟩⟩
    · rw [hret]
      simp
    · rw [hevs]
      constructor
      · intro hmem
        by_cases hcond : (isNext st'.queue sid && (st.compState == CompState.running)) = true
        · rw [Bool.and_eq_true] at hcond
          exact ⟨hcond.1, by simpa using hcond.2⟩
        · rw [if_neg hcond] at hmem
          simp at hmem
      · rintro ⟨h1, h2⟩
        have hcond : (isNext st'.queue sid && (st.compState == CompState.running)) = true := by
          rw [Bool.and_eq_true]
          exact ⟨h1, by simp [h2]⟩
        simp [hcond]

/-- Witness for C5: adding an unscheduled schedule moves it from the idle
map to the queue front and signals the running dispatcher. -/
theorem C5_schedule_add_witness :
    ((true : Bool) = true ↔ (false : Bool) = false) ∧
    ((false : Bool) = true →
      (⟨[⟨0, 5, 10, 2, true, 0, false, false, false, false⟩], [(5, 0)], [],
        CompState.running, 1, 0, 1⟩ : SchedState) =
       ⟨[⟨0, 5, 10, 2, false, 0, false, false, false, false⟩], [], [(0, 0)],
        CompState.running, 1, 0, 1⟩ ∧ [Event.signal] = ([] : List Event)) ∧
    ((false : Bool) = false →
      ([] : KMap) = mapRemove [(0, 0)] 0 ∧
      ∃ r, findFreeStart [] 5 u64 = some r ∧
        ([(5, 0)] : KMap) = [(r, 0)] ∧
        getSched ⟨[⟨0, 5, 10, 2, true, 0, false, false, false, false⟩], [(5, 0)], [],
                  CompState.running, 1, 0, 1⟩ 0 =
          some ⟨0, r, 10, 2, true, 0, false, false, false, false⟩ ∧
        (Event.signal ∈ [Event.signal] ↔
          isNext [(5, 0)] 0 = true ∧ CompState.running = CompState.running) ∧
        WF ⟨[⟨0, 5, 10, 2, true, 0, false, false, false, false⟩], [(5, 0)], [],
            CompState.running, 1, 0, 1⟩) :=
  C5_schedule_add (by decide)
    (show getSched ⟨[⟨0, 5, 10, 2, false, 0, false, false, false, false⟩], [], [(0, 0)],
        CompState.running, 1, 0, 1⟩ 0 =
      some ⟨0, 5, 10, 2, false, 0, false, false, false, false⟩ from by decide)
    (show iot_schedule_add ⟨[⟨0, 5, 10, 2, false, 0, false, false, false, false⟩], [], [(0, 0)],
        CompState.running, 1, 0, 1⟩ 0 =
      some (⟨[⟨0, 5, 10, 2, true, 0, false, false, false, false⟩], [(5, 0)], [],
             CompState.running, 1, 0, 1⟩, true, [Event.signal]) from by decide)

/-- C6: iot_schedule_reset computes next = period + now; on a scheduled
schedule the queue entry moves to key next (with the queue_add +1 ns
tie-breaking, so exactly next when next is free) and the signal event is
emitted exactly when the schedule became the front while the scheduler is
running; on an unscheduled schedule only the start field is set and both
maps are untouched. -/
theorem C6_schedule_reset {st : SchedState} {sid : Nat} {sch : Sched} {now : Nat}
    {st' : SchedState} {evs : List Event}
    (hwf : WF st) (hg : getSched st sid = some sch)
    (h : iot_schedule_reset st sid now = some (st', evs)) :
    (sch.scheduled = true →
      ∃ r, findFreeStart (mapRemove st.queue sch.start)
          ((sch.period + now % u64) % u64) u64 = some r ∧
        (containsKey (mapRemove st.queue sch.start)
            ((sch.period + now % u64) % u64) = false →
          r = (sch.period + now % u64) % u64) ∧
        st'.queue = (r, sid) :: mapRemove st.queue sch.start ∧
        st'.idle = st.idle ∧
        getSched st' sid = some { sch with start := r, scheduled := true } ∧
        (Event.signal ∈ evs ↔
          isNext st'.queue sid = true ∧ st.compState = CompState.running) ∧
        WF st') ∧
    (sch.scheduled = false →
      st' = setSched st { sch with start := (sch.period + now % u64) % u64 } ∧
      st'.queue = st.queue ∧ st'.idle = st.idle ∧ evs = []) := by
  constructor
  · intro hs
    obtain ⟨r, hf, hfree, hrlt, hq, hi, hcs, hget, hgetne, hevs, hwf2⟩ :=
      sched_reset_spec hwf hg hs h
    refine ⟨r, hf, ?_, hq, hi, hget, ?_, hwf2⟩
    · intro hck
      have hn : (sch.period + now % u64) % u64 < u64 := Nat.mod_lt _ (by decide)
      have heq := findFreeStart_eq_some u64 le_rfl hn (by omega)
        (fun t ht1 ht2 => absurd ht1 (by omega)) hck
      rw [hf] at heq
      exact Option.some.inj heq
    · rw [hevs]
      constructor
      · intro hmem
        by_cases hcond : (isNext st'.queue sid && (st.compState == CompState.running)) = true
        · rw [Bool.and_eq_true] at hcond
          exact ⟨hcond.1, by simpa using hcond.2⟩
        · rw [if_neg hcond] at hmem
          simp at hmem
      · rintro ⟨h1, h2⟩
        have hcond : (isNext st'.queue sid && (st.compState == CompState.running)) = true := by
          rw [Bool.and_eq_true]
          exact ⟨h1, by simp [h2]⟩
        simp [hcond]
  · intro hs
    have heq : iot_schedule_reset st sid now =
        some (setSched st { sch with start := (sch.period + now % u64) % u64 }, []) :=
      sched_reset_unscheduled hg hs
    rw [heq] at h
    simp only [Option.some.injEq, Prod.mk.injEq] at h
    obtain ⟨hst, hevs⟩ := h
    exact ⟨hst.symm, (congrArg SchedState.queue hst).symm,
      (congrArg SchedState.idle hst).symm, hevs.symm⟩

/-- Witness for C6: resetting a scheduled schedule with period 10 at time
20 moves its queue entry to the free key 30 and signals the dispatcher. -/
theorem C6_schedule_reset_witness :
    ((true : Bool) = true →
      ∃ r, findFreeStart (mapRemove [(5, 0)] 5) ((10 + 20 % u64) % u64) u64 = some r ∧
        (containsKey (mapRemove [(5, 0)] 5) ((10 + 20 % u64) % u64) = false →
          r = (10 + 20 % u64) % u64) ∧
        ([(30, 0)] : KMap) = (r, 0) :: mapRemove [(5, 0)] 5 ∧
        ([] : KMap) = [] ∧
        getSched ⟨[⟨0, 30, 10, 2, true, 0, false, false, false, false⟩], [(30, 0)], [],
                  CompState.running, 1, 0, 1⟩ 0 =
          some ⟨0, r, 10, 2, true, 0, false, false, false, false⟩ ∧
        (Event.signal ∈ [Event.signal] ↔
          isNext [(30, 0)] 0 = true ∧ CompState.running = CompState.running) ∧
        WF ⟨[⟨0, 30, 10, 2, true, 0, false, false, false, false⟩], [(30, 0)], [],
            CompState.running, 1, 0, 1⟩) ∧
    ((true : Bool) = false →
      (⟨[⟨0, 30, 10, 2, true, 0, false, false, false, false⟩], [(30, 0)], [],
        CompState.running, 1, 0, 1⟩ : SchedState) =
        setSched ⟨[⟨0, 5, 10, 2, true, 0, false, false, false, false⟩], [(5, 0)], [],
                  CompState.running, 1, 0, 1⟩
          ⟨0, (10 + 20 % u64) % u64, 10, 2, true, 0, false, false, false, false⟩ ∧
      ([(30, 0)] : KMap) = [(5, 0)] ∧ ([] : KMap) = [] ∧
      [Event.signal] = ([] : List Event)) :=
  C6_schedule_reset (by decide)
    (show getSched ⟨[⟨0, 5, 10, 2, true, 0, false, false, false, false⟩], [(5, 0)], [],
        CompState.running, 1, 0, 1⟩ 0 =
      some ⟨0, 5, 10, 2, true, 0, false, false, false, false⟩ from by decide)
    (show iot_schedule_reset ⟨[⟨0, 5, 10, 2, true, 0, false, false, false, false⟩], [(5, 0)], [],
        CompState.running, 1, 0, 1⟩ 0 20 =
      some (⟨[⟨0, 30, 10, 2, true, 0, false, false, false, false⟩], [(30, 0)], [],
             CompState.running, 1, 0, 1⟩, [Event.signal]) from by decide)

/-- C4 counterexample: iot_schedule_queue_remove (scheduler.c lines 90-93)
removes the queue entry but leaves the scheduled flag set to true — the
flag is cleared only later, by iot_schedule_idle_add (lines 79-84), so the
flag does not mirror due-time-map membership immediately after
queue_remove returns. -/
theorem C4_queue_remove_counterexample :
    ((getSched (iot_schedule_queue_remove
        ⟨[⟨0, 5, 10, 2, true, 0, false, false, false, false⟩], [(5, 0)], [],
         CompState.running, 1, 0, 1⟩ 0) 0).map Sched.scheduled = some true) ∧
    (iot_schedule_queue_remove
        ⟨[⟨0, 5, 10, 2, true, 0, false, false, false, false⟩], [(5, 0)], [],
         CompState.running, 1, 0, 1⟩ 0).queue = [] := by decide

/-- C4 (amended): queue_remove removes the entry under the schedule's
current start key and changes nothing else — in particular the schedule
record and its scheduled flag survive unchanged; the flag is cleared by
the idle_add half of iot_schedule_remove, and the
flag-mirrors-queue-membership invariant holds before and after the full
remove operation (not in between its two halves). -/
theorem C4_queue_remove_flag {st : SchedState} {sid : Nat} {sch : Sched}
    (hwf : WF st) (hg : getSched st sid = some sch) (hs : sch.scheduled = true) :
    iot_schedule_queue_remove st sid =
      { st with queue := mapRemove st.queue sch.start } ∧
    getSched (iot_schedule_queue_remove st sid) sid = some sch ∧
    (∀ b ∈ st.scheds, b.scheduled = true ↔ b.sid ∈ valsOf st.queue) ∧
    iot_schedule_remove st sid =
      ({ st with
          scheds := setSchedList st.scheds { sch with scheduled := false },
          queue := mapRemove st.queue sch.start,
          idle := (sid, sid) :: st.idle }, true) ∧
    (∀ b ∈ (iot_schedule_remove st sid).1.scheds,
      b.scheduled = true ↔ b.sid ∈ valsOf (iot_schedule_remove st sid).1.queue) := by
  obtain ⟨hrem, hwf2⟩ := sched_remove_spec hwf hg hs
  refine ⟨?_, ?_, fun b hb => (hwf.2.2.2.2.2 b hb).2.1, hrem, ?_⟩
  · simp only [iot_schedule_queue_remove, hg]
  · simp only [iot_schedule_queue_remove, hg]
    exact hg
  · rw [hrem]
    intro b hb
    exact (hwf2.2.2.2.2.2 b hb).2.1

/-- Witness for the amended C4 on a one-schedule running scheduler. -/
theorem C4_queue_remove_flag_witness :
    iot_schedule_queue_remove
        ⟨[⟨0, 5, 10, 2, true, 0, false, false, false, false⟩], [(5, 0)], [],
         CompState.running, 1, 0, 1⟩ 0 =
      ⟨[⟨0, 5, 10, 2, true, 0, false, false, false, false⟩], mapRemove [(5, 0)] 5, [],
       CompState.running, 1, 0, 1⟩ ∧
    getSched (iot_schedule_queue_remove
        ⟨[⟨0, 5, 10, 2, true, 0, false, false, false, false⟩], [(5, 0)], [],
         CompState.running, 1, 0, 1⟩ 0) 0 =
      some ⟨0, 5, 10, 2, true, 0, false, false, false, false⟩ ∧
    (∀ b ∈ [(⟨0, 5, 10, 2, true, 0, false, false, false, false⟩ : Sched)],
      b.scheduled = true ↔ b.sid ∈ valsOf [(5, 0)]) ∧
    iot_schedule_remove
        ⟨[⟨0, 5, 10, 2, true, 0, false, false, false, false⟩], [(5, 0)], [],
         CompState.running, 1, 0, 1⟩ 0 =
      (⟨setSchedList [⟨0, 5, 10, 2, true, 0, false, false, false, false⟩]
          ⟨0, 5, 10, 2, false, 0, false, false, false, false⟩,
        mapRemove [(5, 0)] 5, [(0, 0)], CompState.running, 1, 0, 1⟩, true) ∧
    (∀ b ∈ (iot_schedule_remove
        ⟨[⟨0, 5, 10, 2, true, 0, false, false, false, false⟩], [(5, 0)], [],
         CompState.running, 1, 0, 1⟩ 0).1.scheds,
      b.scheduled = true ↔ b.sid ∈ valsOf (iot_schedule_remove
        ⟨[⟨0, 5, 10, 2, true, 0, false, false, false, false⟩], [(5, 0)], [],
         CompState.running, 1, 0, 1⟩ 0).1.queue) :=
  C4_queue_remove_flag (by decide)
    (show getSched ⟨[⟨0, 5, 10, 2, true, 0, false, false, false, false⟩], [(5, 0)], [],
        CompState.running, 1, 0, 1⟩ 0 =
      some ⟨0, 5, 10, 2, true, 0, false, false, false, false⟩ from by decide)
    (by decide)

/-- C2: for a schedule with repeat R ≥ 1 scheduled at the start of a
dispatcher run, if the run ends with the schedule unscheduled (moved to
the idle map) then the total number of dispatch attempts on it (pool or
thread submissions plus dropped occurrences) over the run equals R; and
each due dispatch makes exactly one attempt, decrementing the repeat count
by one and either retiring the schedule to the idle map when the repeat
count was 1 or re-queueing it at period + now while it remains positive. -/
theorem C2_repeat_accounting {st stF : SchedState} {ins : List DisIn}
    {evs : List Event} {s R : Nat} {schS schF : Sched}
    {st1 st1' : SchedState} {i : DisIn} {evs1 : List Event} {cid : Nat} {cur : Sched}
    (hwf : WF st) (hrun : runDispatch st ins = some (stF, evs))
    (hgS : getSched st s = some schS) (hsch : schS.scheduled = true)
    (hR : schS.rpt = R) (hR1 : 1 ≤ R)
    (hgF : getSched stF s = some schF) (hF : schF.scheduled = false)
    (hwf1 : WF st1) (hqn : queueNext st1.queue = some cid)
    (hg1 : getSched st1 cid = some cur) (hdue : cur.start < i.now1 % u64)
    (hd : dispatchOnce st1 i = some (st1', evs1)) :
    attempts evs s = R ∧
    attempts evs1 cid = 1 ∧
    ∃ cur2, getSched st1' cid = some cur2 ∧
      cur2.dropped = cur.dropped + (if cur.hasPool && !i.poolOk then 1 else 0) ∧
      ((cur.rpt = 1 ∧ cur2.rpt = 0 ∧ cur2.scheduled = false ∧
         st1'.queue = mapRemove st1.queue cur.start ∧
         st1'.idle = (cid, cid) :: st1.idle) ∨
       (cur.rpt ≠ 1 ∧ cur2.rpt = cur.rpt - 1 ∧ cur2.scheduled = true ∧
         st1'.idle = st1.idle ∧
         findFreeStart (mapRemove st1.queue cur.start)
           ((cur.period + i.now2 % u64) % u64) u64 = some cur2.start ∧
         st1'.queue = (cur2.start, cid) :: mapRemove st1.queue cur.start)) := by
  refine ⟨?_, ?_, ?_⟩
  · have hP0 : trackInv st s R 0 := ⟨schS, hgS, Or.inl ⟨hsch, by omega, by omega⟩⟩
    obtain ⟨hwfF, schS', hgs', hPP⟩ := dispatch_track_run hwf hrun hP0
    rw [hgF] at hgs'
    have hss : schS' = schF := by simpa using hgs'.symm
    subst hss
    rcases hPP with ⟨h1, _, _⟩ | ⟨_, h2⟩
    · rw [hF] at h1
      exact absurd h1 (by simp)
    · omega
  · obtain ⟨hevs, _, _, _⟩ := dispatch_due_spec hwf1 hqn hg1 hdue hd
    rw [hevs]
    exact attempts_dispatchEvents_self cid cur i.poolOk
  · obtain ⟨_, _, _, cur2, hget2, _, _, _, _, _, _, hdrop2, hbr⟩ :=
      dispatch_due_spec hwf1 hqn hg1 hdue hd
    exact ⟨cur2, hget2, hdrop2, hbr⟩

/-- Witness for C2: a one-shot schedule (repeat 1) due at time 6 is
attempted once and retired to the idle map. -/
theorem C2_repeat_accounting_witness :
    attempts [Event.invoke 0] 0 = 1 ∧
    attempts [Event.invoke 0] 0 = 1 ∧
    ∃ cur2, getSched ⟨[⟨0, 5, 10, 0, false, 0, false, false, false, false⟩], [], [(0, 0)],
        CompState.running, 1, 86400000000006, 1⟩ 0 = some cur2 ∧
      cur2.dropped = 0 ∧
      ((1 = 1 ∧ cur2.rpt = 0 ∧ cur2.scheduled = false ∧
         ([] : KMap) = mapRemove [(5, 0)] 5 ∧
         ([(0, 0)] : KMap) = (0, 0) :: []) ∨
       (1 ≠ 1 ∧ cur2.rpt = 1 - 1 ∧ cur2.scheduled = true ∧
         ([(0, 0)] : KMap) = ([] : KMap) ∧
         findFreeStart (mapRemove [(5, 0)] 5) ((10 + 6 % u64) % u64) u64 = some cur2.start ∧
         ([] : KMap) = (cur2.start, 0) :: mapRemove [(5, 0)] 5)) :=
  @C2_repeat_accounting
    ⟨[⟨0, 5, 10, 1, true, 0, false, false, false, false⟩], [(5, 0)], [],
     CompState.running, 1, 0, 1⟩
    ⟨[⟨0, 5, 10, 0, false, 0, false, false, false, false⟩], [], [(0, 0)],
     CompState.running, 1, 86400000000006, 1⟩
    [⟨6, 6, 6, true⟩]
    [Event.invoke 0]
    0 1
    ⟨0, 5, 10, 1, true, 0, false, false, false, false⟩
    ⟨0, 5, 10, 0, false, 0, false, false, false, false⟩
    ⟨[⟨0, 5, 10, 1, true, 0, false, false, false, false⟩], [(5, 0)], [],
     CompState.running, 1, 0, 1⟩
    ⟨[⟨0, 5, 10, 0, false, 0, false, false, false, false⟩], [], [(0, 0)],
     CompState.running, 1, 86400000000006, 1⟩
    ⟨6, 6, 6, true⟩
    [Event.invoke 0]
    0
    ⟨0, 5, 10, 1, true, 0, false, false, false, false⟩
    (by decide) (by decide) (by decide) (by decide) (by decide) (by decide)
    (by decide) (by decide) (by decide) (by decide) (by decide) (by decide)
    (by decide)

theorem count_drop_refusal (cid : Nat) (cur : Sched) (hp : cur.hasPool = true) :
    (dispatchEvents cid cur false).count (Event.drop cid) = 1 ∧
    (dispatchEvents cid cur false).count (Event.abortcb cid) =
      (if cur.hasAbortCb then 1 else 0) ∧
    (dispatchEvents cid cur false).count (Event.logwarn cid) =
      (if cur.dropped = 0 then 1 else 0) ∧
    (Event.logwarn cid ∈ dispatchEvents cid cur false ↔ cur.dropped = 0) := by
  unfold dispatchEvents
  rw [hp]
  by_cases hd0 : cur.dropped = 0
  · have hb : (cur.dropped == 0) = true := by simpa using hd0
    cases cur.hasRunCb <;> cases cur.hasAbortCb <;>
      simp [hb, hd0, List.count_append, List.count_cons]
  · have hb : (cur.dropped == 0) = false := by simpa using hd0
    cases cur.hasRunCb <;> cases cur.hasAbortCb <;>
      simp [hb, hd0, List.count_append, List.count_cons]

theorem count_drop_dispatchEvents (cid : Nat) (cur : Sched) (pk : Bool) :
    (dispatchEvents cid cur pk).count (Event.drop cid) =
      (if cur.hasPool && !pk then 1 else 0) := by
  unfold dispatchEvents
  cases cur.hasRunCb <;> cases cur.hasPool <;> cases pk <;>
    cases hd : (cur.dropped == 0) <;> cases cur.hasAbortCb <;>
      simp [List.count_append, List.count_cons]

/-- C3: when a due schedule with a thread pool is refused admission, the
dispatcher drops the occurrence exactly once, invokes the abort callback
exactly once when one is set, increments the schedule's dropped counter by
exactly one, and logs the warning exactly when the counter was zero (the
first drop); the counter grows only by the number of drop events of the
pass, the occurrence is consumed identically whatever the admission
decision (never retried), and the schedule-level remove and reset
operations never change the counter. -/
theorem C3_pool_refusal_drop {st st' : SchedState} {i : DisIn} {evs : List Event}
    {cid : Nat} {cur : Sched} {st2 : SchedState} {evs2 : List Event} {j : Bool}
    {stR : SchedState} {retR : Bool} {now : Nat} {stT : SchedState} {evsT : List Event}
    (hwf : WF st) (hqn : queueNext st.queue = some cid)
    (hg : getSched st cid = some cur) (hdue : cur.start < i.now1 % u64)
    (hd : dispatchOnce st i = some (st', evs))
    (hd2 : dispatchOnce st { i with poolOk := j } = some (st2, evs2))
    (hrm : iot_schedule_remove st cid = (stR, retR))
    (hrs : iot_schedule_reset st cid now = some (stT, evsT)) :
    (cur.hasPool = true → i.poolOk = false →
      evs.count (Event.drop cid) = 1 ∧
      evs.count (Event.abortcb cid) = (if cur.hasAbortCb then 1 else 0) ∧
      evs.count (Event.logwarn cid) = (if cur.dropped = 0 then 1 else 0) ∧
      (Event.logwarn cid ∈ evs ↔ cur.dropped = 0) ∧
      ∃ cur2, getSched st' cid = some cur2 ∧ cur2.dropped = cur.dropped + 1) ∧
    (∃ cur2, getSched st' cid = some cur2 ∧
      cur2.dropped = cur.dropped + evs.count (Event.drop cid)) ∧
    (st2.queue = st'.queue ∧ st2.idle = st'.idle ∧
      ∃ cur2 cur2', getSched st' cid = some cur2 ∧ getSched st2 cid = some cur2' ∧
        cur2'.rpt = cur2.rpt ∧ cur2'.scheduled = cur2.scheduled) ∧
    (∃ curR, getSched stR cid = some curR ∧ curR.dropped = cur.dropped) ∧
    (∃ curT, getSched stT cid = some curT ∧ curT.dropped = cur.dropped) := by
  have hsid : cur.sid = cid := (getSched_mem hg).2
  obtain ⟨cur0, hg0, hcs0, _, _⟩ := queueNext_entry hwf hqn
  rw [hg] at hg0
  have hc00 : cur = cur0 := by simpa using hg0
  have hcs : cur.scheduled = true := by rw [hc00]; exact hcs0
  obtain ⟨hevs, hWF, hne, cur2, hget2, hsid2, hper2, hpool2, hrun2, habort2, hfree2,
    hdrop2, hbr⟩ := dispatch_due_spec hwf hqn hg hdue hd
  refine ⟨?_, ?_, ?_, ?_, ?_⟩
  · intro hp hpk
    have hevs' : evs = dispatchEvents cid cur false := by rw [hevs, hpk]
    obtain ⟨hc1, hc2, hc3, hc4⟩ := count_drop_refusal cid cur hp
    refine ⟨by rw [hevs']; exact hc1, by rw [hevs']; exact hc2,
      by rw [hevs']; exact hc3, by rw [hevs']; exact hc4, cur2, hget2, ?_⟩
    rw [hdrop2, hp, hpk]
    simp
  · refine ⟨cur2, hget2, ?_⟩
    rw [hevs, count_drop_dispatchEvents]
    exact hdrop2
  · have hdue2 : cur.start < ({ i with poolOk := j } : DisIn).now1 % u64 := hdue
    obtain ⟨hevs2, hWF2, hne2, cur2', hget2', hsid2', hper2', hpool2', hrun2',
      habort2', hfree2', hdrop2', hbr2⟩ := dispatch_due_spec hwf hqn hg hdue2 hd2
    rcases hbr with ⟨h1, h2, h3, h4, h5⟩ | ⟨h1, h2, h3, h4, h5, h6⟩
    · rcases hbr2 with ⟨g1, g2, g3, g4, g5⟩ | ⟨g1, g2, g3, g4, g5, g6⟩
      · exact ⟨by rw [g4, h4], by rw [g5, h5], cur2, cur2', hget2, hget2',
          by rw [g2, h2], by rw [g3, h3]⟩
      · exact absurd h1 g1
    · rcases hbr2 with ⟨g1, g2, g3, g4, g5⟩ | ⟨g1, g2, g3, g4, g5, g6⟩
      · exact absurd g1 h1
      · have g5' : findFreeStart (mapRemove st.queue cur.start)
            ((cur.period + i.now2 % u64) % u64) u64 = some cur2'.start := g5
        rw [h5] at g5'
        refine ⟨?_, by rw [g4, h4], cur2, cur2', hget2, hget2',
          by rw [g2, h2], by rw [g3, h3]⟩
        rw [g6, h6, Option.some.inj g5']
  · obtain ⟨hrmeq, _⟩ := sched_remove_spec hwf hg hcs
    rw [hrmeq] at hrm
    have hstR : ({ st with
        scheds := setSchedList st.scheds { cur with scheduled := false },
        queue := mapRemove st.queue cur.start,
        idle := (cid, cid) :: st.idle } : SchedState) = stR := congrArg Prod.fst hrm
    have hfind : st.scheds.find?
        (fun s => s.sid == ({ cur with scheduled := false } : Sched).sid) = some cur := by
      show st.scheds.find? (fun s => s.sid == cur.sid) = some cur
      rw [hsid]
      exact hg
    have hf2 := find?_setSchedList_self hfind
    refine ⟨{ cur with scheduled := false }, ?_, rfl⟩
    rw [← hstR]
    show (setSchedList st.scheds { cur with scheduled := false }).find?
        (fun s => s.sid == cid) = some { cur with scheduled := false }
    rw [show cid = ({ cur with scheduled := false } : Sched).sid from hsid.symm]
    exact hf2
  · obtain ⟨r, _, _, _, _, _, _, hgetT, _, _, _⟩ := sched_reset_spec hwf hg hcs hrs
    exact ⟨{ cur with start := r, scheduled := true }, hgetT, rfl⟩

/-- Witness for C3: a due schedule with a pool and an abort callback is
refused admission at its first drop; the alternative (admitted) pass,
a remove and a reset are also evaluated on the same state. -/
theorem C3_pool_refusal_drop_witness :
    ((true : Bool) = true → (false : Bool) = false →
      [Event.abortcb 0, Event.drop 0, Event.logwarn 0].count (Event.drop 0) = 1 ∧
      [Event.abortcb 0, Event.drop 0, Event.logwarn 0].count (Event.abortcb 0) =
        (if (true : Bool) then 1 else 0) ∧
      [Event.abortcb 0, Event.drop 0, Event.logwarn 0].count (Event.logwarn 0) =
        (if (0 : Nat) = 0 then 1 else 0) ∧
      (Event.logwarn 0 ∈ [Event.abortcb 0, Event.drop 0, Event.logwarn 0] ↔ (0 : Nat) = 0) ∧
      ∃ cur2, getSched ⟨[⟨0, 16, 10, 1, true, 1, true, false, true, false⟩], [(16, 0)], [],
          CompState.running, 1, 16, 1⟩ 0 = some cur2 ∧ cur2.dropped = 0 + 1) ∧
    (∃ cur2, getSched ⟨[⟨0, 16, 10, 1, true, 1, true, false, true, false⟩], [(16, 0)], [],
        CompState.running, 1, 16, 1⟩ 0 = some cur2 ∧
      cur2.dropped = 0 + [Event.abortcb 0, Event.drop 0, Event.logwarn 0].count (Event.drop 0)) ∧
    (([(16, 0)] : KMap) = [(16, 0)] ∧ ([] : KMap) = [] ∧
      ∃ cur2 cur2', getSched ⟨[⟨0, 16, 10, 1, true, 1, true, false, true, false⟩], [(16, 0)], [],
          CompState.running, 1, 16, 1⟩ 0 = some cur2 ∧
        getSched ⟨[⟨0, 16, 10, 1, true, 0, true, false, true, false⟩], [(16, 0)], [],
          CompState.running, 1, 16, 1⟩ 0 = some cur2' ∧
        cur2'.rpt = cur2.rpt ∧ cur2'.scheduled = cur2.scheduled) ∧
    (∃ curR, getSched ⟨[⟨0, 5, 10, 2, false, 0, true, false, true, false⟩], [], [(0, 0)],
        CompState.running, 1, 0, 1⟩ 0 = some curR ∧ curR.dropped = 0) ∧
    (∃ curT, getSched ⟨[⟨0, 110, 10, 2, true, 0, true, false, true, false⟩], [(110, 0)], [],
        CompState.running, 1, 0, 1⟩ 0 = some curT ∧ curT.dropped = 0) :=
  @C3_pool_refusal_drop
    ⟨[⟨0, 5, 10, 2, true, 0, true, false, true, false⟩], [(5, 0)], [],
     CompState.running, 1, 0, 1⟩
    ⟨[⟨0, 16, 10, 1, true, 1, true, false, true, false⟩], [(16, 0)], [],
     CompState.running, 1, 16, 1⟩
    ⟨6, 6, 6, false⟩
    [Event.abortcb 0, Event.drop 0, Event.logwarn 0]
    0
    ⟨0, 5, 10, 2, true, 0, true, false, true, false⟩
    ⟨[⟨0, 16, 10, 1, true, 0, true, false, true, false⟩], [(16, 0)], [],
     CompState.running, 1, 16, 1⟩
    [Event.invoke 0]
    true
    ⟨[⟨0, 5, 10, 2, false, 0, true, false, true, false⟩], [], [(0, 0)],
     CompState.running, 1, 0, 1⟩
    true
    100
    ⟨[⟨0, 110, 10, 2, true, 0, true, false, true, false⟩], [(110, 0)], [],
     CompState.running, 1, 0, 1⟩
    [Event.signal]
    (by decide) (by decide) (by decide) (by decide) (by decide) (by decide)
    (by decide) (by decide)

end IotCUtils
